import Mathlib

/-!
# A verification model of `src/root/stringtable.c` (DMD string-interning table)

This file gives a shallow embedding of the string table: the MurmurHash2
function `calcHash`, the bump-pointer pool allocator (`allocValue` /
`getValue`), the packed 32-bit handles, and the open-addressing hash table
with triangular-number quadratic probing (`findSlot`, `lookup`, `insert`,
`update`, `grow`, `_init`).

Conventions of the embedding:
* Byte strings are `List Nat`.  The C functions receive `(const char *s,
  size_t length)`; the pair denotes exactly the byte string, so the model
  functions take the list and use its length where the C code uses `length`.
* Machine integers are `Nat` with explicit `% 2 ^ 32` (for `uint32_t`
  values) exactly where the C arithmetic truncates.
* Memory pools are modelled as association lists from byte offsets to the
  value records stored at those offsets; the record carries its byte
  content, so "the bytes stored in the pool" are the records themselves.
* `findSlot` loops unboundedly in C; the model gives it `tabledim` steps of
  fuel and returns `Option Nat`.  Under the table invariant (an empty slot
  always exists) the fuel is sufficient, which is proved below; the `none`
  branches of the callers correspond to executions in which the C loop
  would never terminate.
-/

namespace StringTableC

/-- `#define POOL_BITS 12` -/
def POOL_BITS : Nat := 12

/-- `#define POOL_SIZE (1U << POOL_BITS)` -/
def POOL_SIZE : Nat := 1 <<< POOL_BITS

/-- The modulus of `uint32_t` arithmetic. -/
def U32 : Nat := 2 ^ 32

/-! ## calcHash (MurmurHash2)

`static uint32_t calcHash(const char *key, size_t len)`, lines 26-79.
The model follows the portable (non-x86) branch of the 4-byte load, which
composes the same little-endian value the x86 unaligned load produces. -/

/-- The MurmurHash2 mixing constant `m = 0x5bd1e995`. -/
def murmurM : Nat := 0x5bd1e995

/-- The final mixing steps `h ^= h >> 13; h *= m; h ^= h >> 15;`. -/
def murmurFinal (h : Nat) : Nat :=
  let h1 := h ^^^ (h >>> 13)
  let h2 := h1 * murmurM % U32
  h2 ^^^ (h2 >>> 15)

/-- The `while (len >= 4)` loop plus the tail `switch (len & 3)` and the
final mix of `calcHash`.  Each assignment to the `uint32_t` locals `k` and
`h` is mirrored with an explicit truncation `% U32`. -/
def calcHashAux (h : Nat) : List Nat → Nat
  | b0 :: b1 :: b2 :: b3 :: rest =>
      let k0 := (b3 <<< 24 ||| b2 <<< 16 ||| b1 <<< 8 ||| b0) % U32
      let k1 := k0 * murmurM % U32
      let k2 := (k1 ^^^ (k1 >>> 24)) % U32
      let k3 := k2 * murmurM % U32
      let h1 := h * murmurM % U32
      let h2 := (h1 ^^^ k3) % U32
      calcHashAux h2 rest
  | [a, b, c] =>
      let h1 := (h ^^^ (c <<< 16)) % U32
      let h2 := (h1 ^^^ (b <<< 8)) % U32
      let h3 := (h2 ^^^ a) % U32
      murmurFinal (h3 * murmurM % U32)
  | [a, b] =>
      let h1 := (h ^^^ (b <<< 8)) % U32
      let h2 := (h1 ^^^ a) % U32
      murmurFinal (h2 * murmurM % U32)
  | [a] =>
      let h1 := (h ^^^ a) % U32
      murmurFinal (h1 * murmurM % U32)
  | [] => murmurFinal h

/-- `calcHash`: the hash is seeded with the length (`uint32_t h = len`). -/
def calcHash (s : List Nat) : Nat := calcHashAux (s.length % U32) s

/-! ## Data model -/

/-- The value record stored inside a pool.  `stringtable.h` is not part of
the sources under `src/`; the record layout is modelled from the spec
(section 3, "Value Record"): an opaque payload slot (`ptrvalue`, zeroed on
creation and never touched by the table), the length, and `length + 1`
bytes of content including the trailing `0` terminator. -/
structure StringValue where
  ptrvalue : Nat
  length : Nat
  lstring : List Nat
deriving DecidableEq

/-- `struct StringEntry { uint32_t hash, vptr; }` (line 81). -/
structure StringEntry where
  hash : Nat
  vptr : Nat
deriving DecidableEq

/-- Modelled from the spec: `sizeof(StringValue)` — the record header
(payload slot plus length field) on the 64-bit target; the spec calls this
"header size for a Value Record" (section 4.2). -/
def SV_SIZE : Nat := 16

/-- One memory pool: its allocated byte size and the records it holds,
as an association list from byte offset to record (newest first). -/
structure Pool where
  psize : Nat
  recs : List (Nat × StringValue)
deriving DecidableEq

/-- A pool holding no records, used as the out-of-bounds default
(dereferencing a bad pool index is undefined behaviour in C; the model
reads the empty pool and finds nothing). -/
def emptyPool : Pool := { psize := 0, recs := [] }

/-- The entry value of a never-written slot (the table arrays are created
with `mem.calloc`, i.e. zero-filled). -/
def emptyEntry : StringEntry := { hash := 0, vptr := 0 }

/-- The state of a `StringTable`: the entry array `table` with its size
`tabledim`, the live-entry `count`, the pool list `pools` (whose length is
the C `npools`) and the bump cursor `nfill` into the current pool. -/
structure StringTable where
  table : List StringEntry
  tabledim : Nat
  pools : List Pool
  nfill : Nat
  count : Nat
deriving DecidableEq

/-- The entry at slot `i` of the table array. -/
def entryAt (st : StringTable) (i : Nat) : StringEntry := st.table.getD i emptyEntry

/-! ## Handle decoding and the pool allocator -/

/-- `StringTable::getValue` (lines 108-115), as a function of the pool
list: `if (!vptr) return NULL;` then
`idx = (vptr >> POOL_BITS) - 1; off = vptr & POOL_SIZE - 1;` and the record
at that offset of that pool is returned. -/
def getSV (pools : List Pool) (vptr : Nat) : Option StringValue :=
  if vptr = 0 then none
  else
    ((pools.getD ((vptr >>> POOL_BITS) - 1) emptyPool).recs.find?
        (fun r => r.1 == vptr &&& (POOL_SIZE - 1))).map (fun r => r.2)

def StringTable.getValue (st : StringTable) (vptr : Nat) : Option StringValue :=
  getSV st.pools vptr

/-- A returned `StringValue *`: the handle it decodes together with the
record it points at (two C pointers into the pools are equal exactly when
their handles are equal). -/
def deref (pools : List Pool) (vptr : Nat) : Option (Nat × StringValue) :=
  (getSV pools vptr).map (fun sv => (vptr, sv))

/-- `(-nbytes) & 7` in `size_t` arithmetic: the padding that rounds
`nbytes` up to the next multiple of 8. -/
def negMod8 (n : Nat) : Nat := (8 - n % 8) % 8

/-- Apply `f` to the last element of a pool list (the current pool,
`pools[npools - 1]`). -/
def setLast (f : Pool → Pool) : List Pool → List Pool
  | [] => []
  | [p] => [f p]
  | p :: q :: rest => p :: setLast f (q :: rest)

/-- The record that `allocValue` writes for the byte string `s`:
`sv->ptrvalue = NULL; sv->length = length; memcpy(sv->lstring, s, length);
sv->lstring[length] = 0;`. -/
def svOf (s : List Nat) : StringValue :=
  { ptrvalue := 0, length := s.length, lstring := s ++ [0] }

/-- `StringTable::allocValue` (lines 86-106).  A fresh pool of size
`max nbytes POOL_SIZE` is started when there is none or the current one
cannot hold `nbytes` more bytes; the record is placed at the bump cursor,
the handle `npools << POOL_BITS | nfill` (a `uint32_t`) is returned, and
the cursor advances by `nbytes` rounded up to a multiple of 8. -/
def allocValue (st : StringTable) (s : List Nat) : Nat × StringTable :=
  let nbytes := SV_SIZE + s.length + 1
  let fresh : Bool := st.pools.length == 0 || decide (st.nfill + nbytes > POOL_SIZE)
  let pools1 :=
    if fresh then
      st.pools ++ [{ psize := if nbytes > POOL_SIZE then nbytes else POOL_SIZE, recs := [] }]
    else st.pools
  let nfill1 := if fresh then 0 else st.nfill
  let npools := pools1.length
  let pools2 := setLast (fun p => { p with recs := (nfill1, svOf s) :: p.recs }) pools1
  let vptr := (npools <<< POOL_BITS ||| nfill1) % U32
  (vptr, { st with pools := pools2, nfill := nfill1 + nbytes + negMod8 nbytes })

/-! ## findSlot -/

/-- The slot-acceptance test of `findSlot` (lines 156-159): the slot is
empty, or its stored hash equals the probe hash and its record has the
same length and bytes as the probe string (`memcmp(s, sv->lstring,
length) == 0` compares the first `length` stored bytes with `s`). -/
def slotCondE (pools : List Pool) (hash : Nat) (s : List Nat) (e : StringEntry) : Bool :=
  e.vptr == 0 ||
    (e.hash == hash &&
      match getSV pools e.vptr with
      | some sv => sv.length == s.length && sv.lstring.take s.length == s
      | none => false)

def slotCond (st : StringTable) (hash : Nat) (s : List Nat) (i : Nat) : Bool :=
  slotCondE st.pools hash s (entryAt st i)

/-- The loop of `StringTable::findSlot` (lines 149-163), with fuel: slot
`i` is tested; on failure the probe moves to `(i + j) & (tabledim - 1)`
and `j` increments.  The C loop has no fuel; `tabledim` steps are enough
whenever the table has an empty slot (proved below). -/
def findSlotAux (st : StringTable) (hash : Nat) (s : List Nat) :
    Nat → Nat → Nat → Option Nat
  | 0, _, _ => none
  | fuel+1, i, j =>
      if slotCond st hash s i then some i
      else findSlotAux st hash s fuel ((i + j) &&& (st.tabledim - 1)) (j + 1)

/-- `StringTable::findSlot`: the probe starts at `hash & (tabledim - 1)`
with step counter `j = 1`. -/
def findSlot (st : StringTable) (hash : Nat) (s : List Nat) : Option Nat :=
  findSlotAux st hash s st.tabledim (hash &&& (st.tabledim - 1)) 1

/-! ## lookup / insert / update / grow -/

/-- `StringTable::lookup` (lines 165-171).  The returned state is the
input state: the body performs no assignment to the table.  The result is
`getValue(table[i].vptr)` — `NULL` when the found slot is empty. -/
def lookup (st : StringTable) (s : List Nat) :
    Option (Nat × StringValue) × StringTable :=
  let hash := calcHash s
  match findSlot st hash s with
  | none => (none, st)
  | some i => (deref st.pools (entryAt st i).vptr, st)

/-- `table[findSlot(se.hash, sv->lstring, sv->length)] = se` for one old
entry `se`, i.e. the body of the rehash loop of `grow` (lines 215-221). -/
def growStep (otab : List StringEntry) (acc : StringTable) (i : Nat) : StringTable :=
  if (otab.getD i emptyEntry).vptr == 0 then acc
  else
    match getSV acc.pools (otab.getD i emptyEntry).vptr with
    | none => acc
    | some sv =>
        match findSlot acc (otab.getD i emptyEntry).hash (sv.lstring.take sv.length) with
        | none => acc
        | some k => { acc with table := acc.table.set k (otab.getD i emptyEntry) }

/-- `StringTable::grow` (lines 208-223): double `tabledim`, allocate a
zero-filled entry array, and re-slot every occupied old entry by its
stored hash.  Pools, `nfill` and `count` are not touched. -/
def grow (st : StringTable) : StringTable :=
  let odim := st.tabledim
  let otab := st.table
  let st1 := { st with tabledim := 2 * odim, table := List.replicate (2 * odim) emptyEntry }
  (List.range odim).foldl (growStep otab) st1

/-- `++count > tabledim * loadFactor` with `loadFactor = 0.8`.  For the
reachable values (`tabledim` a power of two, at least 32, below `2 ^ 53`)
the IEEE-double product `tabledim * 0.8` is `tabledim * 0.8` plus a
positive error below `2 ^ -30`, and `4 * tabledim / 5` is never an
integer, so the comparison is exactly the rational one. -/
def growCheck (count tabledim : Nat) : Bool := decide (4 * tabledim < 5 * count)

/-- Store entry `e` into slot `i`. -/
def setEntry (st : StringTable) (i : Nat) (e : StringEntry) : StringTable :=
  { st with table := st.table.set i e }

/-- The tail that `insert` and `update` share once the probe has found an
empty slot: `table[i].hash = hash; table[i].vptr = allocValue(s, length);`
then `return getValue(table[i].vptr);` (lines 184-188 and 202-205). -/
def finishAdd (st : StringTable) (hash : Nat) (s : List Nat) (i : Nat) :
    Option (Nat × StringValue) × StringTable :=
  (deref (setEntry (allocValue st s).2 i
      { hash := hash, vptr := (allocValue st s).1 }).pools (allocValue st s).1,
   setEntry (allocValue st s).2 i { hash := hash, vptr := (allocValue st s).1 })

/-- The empty-slot branch shared by `insert` and `update`:
`if (++count > tabledim * loadFactor) { grow(); i = findSlot(hash, s,
length); }` and then the store (lines 177-186 and 197-203). -/
def insertAbsent (st : StringTable) (hash : Nat) (s : List Nat) (i0 : Nat) :
    Option (Nat × StringValue) × StringTable :=
  if growCheck (st.count + 1) st.tabledim then
    match findSlot (grow { st with count := st.count + 1 }) hash s with
    | none => (none, grow { st with count := st.count + 1 })
    | some i => finishAdd (grow { st with count := st.count + 1 }) hash s i
  else finishAdd { st with count := st.count + 1 } hash s i0

/-- `StringTable::insert` (lines 191-206): `NULL` when the found slot is
occupied, otherwise allocate and store. -/
def insert (st : StringTable) (s : List Nat) :
    Option (Nat × StringValue) × StringTable :=
  let hash := calcHash s
  match findSlot st hash s with
  | none => (none, st)
  | some i0 =>
      if (entryAt st i0).vptr != 0 then (none, st)
      else insertAbsent st hash s i0

/-- `StringTable::update` (lines 173-189): like `insert`, but an occupied
slot returns the existing record instead of `NULL`. -/
def update (st : StringTable) (s : List Nat) :
    Option (Nat × StringValue) × StringTable :=
  let hash := calcHash s
  match findSlot st hash s with
  | none => (none, st)
  | some i0 =>
      if (entryAt st i0).vptr != 0 then (deref st.pools (entryAt st i0).vptr, st)
      else insertAbsent st hash s i0

/-! ## Construction -/

/-- `static size_t nextpow2(size_t val)` (lines 117-123), with fuel `val`
for the `while (res < val) res <<= 1;` loop (starting from `res = 1`,
`val` doublings always reach `val`). -/
def nextpow2Go (val : Nat) : Nat → Nat → Nat
  | 0, res => res
  | fuel+1, res => if res < val then nextpow2Go val fuel (res <<< 1) else res

def nextpow2 (val : Nat) : Nat := nextpow2Go val val 1

/-- The size computation of `StringTable::_init` (lines 127-136):
`size = nextpow2((size_t)(size / loadFactor)); if (size < 32) size = 32;`.
For the representable range (`size < 2 ^ 51`) the IEEE-double quotient
`size / 0.8` rounds to exactly `size * 1.25`, whose truncation to
`size_t` is `5 * size / 4` in natural division. -/
def initSize (size : Nat) : Nat :=
  let size1 := nextpow2 (5 * size / 4)
  if size1 < 32 then 32 else size1

/-- `StringTable::_init`: a zero-filled entry array of `initSize size`
entries, no pools, zero fill cursor and zero count. -/
def init (size : Nat) : StringTable :=
  let dim := initSize size
  { table := List.replicate dim emptyEntry, tabledim := dim,
    pools := [], nfill := 0, count := 0 }

/-! ## The probe sequence in closed form -/

/-- Triangular numbers: the cumulative probe displacement after `t` steps
(`j` takes the values `1, 2, …, t`). -/
def tri : Nat → Nat
  | 0 => 0
  | t+1 => tri t + (t+1)

/-- The slot probed at step `t` by `findSlot` on a table of size `dim`:
start slot `hash & (dim - 1)` displaced by the `t`-th triangular number,
reduced mod `dim`. -/
def probeIdx (dim hash t : Nat) : Nat := ((hash &&& (dim - 1)) + tri t) % dim

/-- The generic bounded search: the first `t` in `[t0, t0 + n)` with
`cond t = true`. -/
def firstHit (cond : Nat → Bool) : Nat → Nat → Option Nat
  | 0, _ => none
  | n+1, t => if cond t then some t else firstHit cond n (t+1)

end StringTableC

namespace StringTableC

/-! ## List utilities -/

theorem getD_set_self {α : Type} (l : List α) (i : Nat) (x d : α) (h : i < l.length) :
    (l.set i x).getD i d = x := by
  induction l generalizing i with
  | nil => simp at h
  | cons a l ih =>
      cases i with
      | zero => rfl
      | succ i => simpa using ih i (by simpa using h)

theorem getD_set_ne {α : Type} (l : List α) (i j : Nat) (x d : α) (h : i ≠ j) :
    (l.set i x).getD j d = l.getD j d := by
  induction l generalizing i j with
  | nil => rfl
  | cons a l ih =>
      cases i with
      | zero =>
          cases j with
          | zero => exact absurd rfl h
          | succ j => rfl
      | succ i =>
          cases j with
          | zero => rfl
          | succ j => simpa using ih i j (by omega)

theorem getD_replicate {α : Type} (n i : Nat) (x d : α) (h : i < n) :
    (List.replicate n x).getD i d = x := by
  induction n generalizing i with
  | zero => omega
  | succ n ih =>
      rw [List.replicate_succ]
      cases i with
      | zero => rfl
      | succ i => simpa using ih i (by omega)

theorem getD_append_left {α : Type} (l l2 : List α) (i : Nat) (d : α) (h : i < l.length) :
    (l ++ l2).getD i d = l.getD i d := by
  induction l generalizing i with
  | nil => simp at h
  | cons a l ih =>
      cases i with
      | zero => rfl
      | succ i => simpa using ih i (by simpa using h)

/-! ## setLast lemmas -/

theorem length_setLast (f : Pool → Pool) (ps : List Pool) :
    (setLast f ps).length = ps.length := by
  induction ps with
  | nil => rfl
  | cons p ps ih =>
      cases ps with
      | nil => rfl
      | cons q rest => simpa [setLast] using ih

theorem setLast_append_singleton (f : Pool → Pool) (ps : List Pool) (x : Pool) :
    setLast f (ps ++ [x]) = ps ++ [f x] := by
  induction ps with
  | nil => rfl
  | cons p ps ih =>
      cases ps with
      | nil => rfl
      | cons q rest => simpa [setLast] using ih

theorem getD_setLast_lt (f : Pool → Pool) (ps : List Pool) (i : Nat) (d : Pool)
    (h : i + 1 < ps.length) : (setLast f ps).getD i d = ps.getD i d := by
  induction ps generalizing i with
  | nil => rfl
  | cons p ps ih =>
      cases ps with
      | nil => simp at h
      | cons q rest =>
          cases i with
          | zero => rfl
          | succ i => simpa [setLast] using ih i (by simpa using h)

theorem getD_setLast_last (f : Pool → Pool) (ps : List Pool) (d : Pool)
    (h : ps ≠ []) :
    (setLast f ps).getD (ps.length - 1) d = f (ps.getD (ps.length - 1) d) := by
  induction ps with
  | nil => exact absurd rfl h
  | cons p ps ih =>
      cases ps with
      | nil => rfl
      | cons q rest =>
          have hlen : (q :: rest).length - 1 + 1 = (p :: q :: rest).length - 1 := by
            simp
          rw [← hlen]
          simpa [setLast] using ih (by simp)

/-! ## Occupied-slot counting -/

/-- The number of occupied (`vptr ≠ 0`) entries of a table array. -/
def occupied (tbl : List StringEntry) : Nat :=
  (tbl.filter (fun e => !(e.vptr == 0))).length

theorem occupied_nil : occupied [] = 0 := rfl

theorem occupied_cons (e : StringEntry) (tbl : List StringEntry) :
    occupied (e :: tbl) = (if e.vptr = 0 then 0 else 1) + occupied tbl := by
  by_cases h : e.vptr = 0
  · simp [occupied, List.filter_cons, h]
  · simp only [occupied, List.filter_cons]
    simp [h]
    omega

theorem occupied_le_length (tbl : List StringEntry) : occupied tbl ≤ tbl.length :=
  List.length_filter_le _ _

theorem occupied_replicate_empty (n : Nat) :
    occupied (List.replicate n emptyEntry) = 0 := by
  induction n with
  | zero => rfl
  | succ n ih => simpa [occupied_cons, emptyEntry] using ih

theorem occupied_set (tbl : List StringEntry) (i : Nat) (x : StringEntry)
    (hi : i < tbl.length) (hold : (tbl.getD i emptyEntry).vptr = 0)
    (hnew : x.vptr ≠ 0) :
    occupied (tbl.set i x) = occupied tbl + 1 := by
  induction tbl generalizing i with
  | nil => simp at hi
  | cons a tbl ih =>
      cases i with
      | zero =>
          have ha : a.vptr = 0 := hold
          simp only [List.set]
          rw [occupied_cons, occupied_cons]
          simp [ha, hnew]
          omega
      | succ i =>
          have := ih i (by simpa using hi) (by simpa using hold)
          simp only [List.set]
          rw [occupied_cons, occupied_cons, this]
          omega

theorem exists_empty_slot (tbl : List StringEntry) (h : occupied tbl < tbl.length) :
    ∃ i < tbl.length, (tbl.getD i emptyEntry).vptr = 0 := by
  induction tbl with
  | nil => simp at h
  | cons a tbl ih =>
      by_cases ha : a.vptr = 0
      · exact ⟨0, by simp, ha⟩
      · have h2 : occupied tbl < tbl.length := by
          have hc := occupied_cons a tbl
          rw [if_neg ha] at hc
          have hl : (a :: tbl).length = tbl.length + 1 := rfl
          omega
        obtain ⟨i, hi, he⟩ := ih h2
        exact ⟨i + 1, by simpa using hi, by simpa using he⟩

end StringTableC

namespace StringTableC

/-! ## Triangular numbers and injectivity of the probe sequence -/

theorem two_mul_tri (t : Nat) : 2 * tri t = t * (t + 1) := by
  induction t with
  | zero => rfl
  | succ t ih =>
      have : tri (t + 1) = tri t + (t + 1) := rfl
      rw [this]
      nlinarith

theorem tri_mono {a b : Nat} (h : a ≤ b) : tri a ≤ tri b := by
  induction b with
  | zero =>
      have : a = 0 := by omega
      subst this
      exact le_rfl
  | succ b ih =>
      rcases Nat.lt_or_ge a (b + 1) with hlt | hge
      · have he : tri (b + 1) = tri b + (b + 1) := rfl
        have := ih (by omega)
        omega
      · have : a = b + 1 := by omega
        subst this
        exact le_rfl

theorem tri_mod_inj_le (k : Nat) {a d : Nat} (hb : a + d < 2 ^ k)
    (h : tri a % 2 ^ k = tri (a + d) % 2 ^ k) : d = 0 := by
  -- 2 ^ k divides tri (a + d) - tri a
  have hdvd : 2 ^ k ∣ tri (a + d) - tri a :=
    (Nat.modEq_iff_dvd' (tri_mono (Nat.le_add_right a d))).mp h
  -- hence 2 ^ (k + 1) divides d * (2 * a + d + 1)
  have e1 := two_mul_tri (a + d)
  have e2 := two_mul_tri a
  have e3 : tri a ≤ tri (a + d) := tri_mono (Nat.le_add_right a d)
  have key : (a + d) * (a + d + 1) = a * (a + 1) + d * (2 * a + d + 1) := by ring
  set D := d * (2 * a + d + 1) with hD
  have h4 : 2 * tri (a + d) = 2 * tri a + D := by linarith [e1, e2, key]
  have h2 : 2 * (tri (a + d) - tri a) = D := by omega
  have hdvd2 : 2 ^ (k + 1) ∣ D := by
    rw [← h2, pow_succ, mul_comm (2 ^ k) 2]
    exact Nat.mul_dvd_mul_left 2 hdvd
  -- parity case split
  rcases Nat.even_or_odd d with hde | hdo
  · -- d even, so 2 * a + d + 1 is odd and 2 ^ (k + 1) must divide d
    have hodd : Odd (2 * a + d + 1) := by
      rcases hde with ⟨m, hm⟩
      exact ⟨a + m, by omega⟩
    have hco : Nat.Coprime (2 ^ (k + 1)) (2 * a + d + 1) :=
      Nat.Coprime.pow_left _ (Nat.coprime_two_left.mpr hodd)
    have hd : 2 ^ (k + 1) ∣ d := hco.dvd_of_dvd_mul_right (hD ▸ hdvd2)
    have hlt : d < 2 ^ (k + 1) := by
      have hp2 : (2 : Nat) ^ (k + 1) = 2 ^ k * 2 := pow_succ 2 k
      omega
    exact Nat.eq_zero_of_dvd_of_lt hd hlt
  · -- d odd, so 2 ^ (k + 1) must divide 2 * a + d + 1, which is too small
    have hco : Nat.Coprime (2 ^ (k + 1)) d :=
      Nat.Coprime.pow_left _ (Nat.coprime_two_left.mpr hdo)
    have hd : 2 ^ (k + 1) ∣ 2 * a + d + 1 := by
      have hmul : D = (2 * a + d + 1) * d := by rw [hD]; ring
      exact hco.dvd_of_dvd_mul_right (hmul ▸ hdvd2)
    have hbound : 2 * a + d + 1 < 2 ^ (k + 1) := by
      have hp : (2 : Nat) ^ (k + 1) = 2 ^ k * 2 := pow_succ 2 k
      omega
    have := Nat.eq_zero_of_dvd_of_lt hd hbound
    omega

/-- Distinct probe steps below the table size land on distinct slots: the
triangular numbers `tri t` are pairwise distinct modulo `2 ^ k` for
`t < 2 ^ k`. -/
theorem tri_mod_injective (k : Nat) {a b : Nat} (ha : a < 2 ^ k) (hb : b < 2 ^ k)
    (h : tri a % 2 ^ k = tri b % 2 ^ k) : a = b := by
  rcases Nat.le_total a b with hab | hab
  · obtain ⟨d, rfl⟩ := Nat.exists_eq_add_of_le hab
    have := tri_mod_inj_le k hb h
    omega
  · obtain ⟨d, rfl⟩ := Nat.exists_eq_add_of_le hab
    have := tri_mod_inj_le k ha h.symm
    omega

end StringTableC

namespace StringTableC

/-! ## firstHit: the generic first-success search -/

theorem firstHit_eq_some (cond : Nat → Bool) (n t0 u : Nat)
    (h : firstHit cond n t0 = some u) :
    t0 ≤ u ∧ u < t0 + n ∧ cond u = true ∧ ∀ w, t0 ≤ w → w < u → cond w = false := by
  induction n generalizing t0 with
  | zero => simp [firstHit] at h
  | succ n ih =>
      by_cases hc : cond t0
      · simp [firstHit, hc] at h
        subst h
        exact ⟨le_rfl, by omega, hc, fun w hw1 hw2 => by omega⟩
      · simp [firstHit, hc] at h
        obtain ⟨h1, h2, h3, h4⟩ := ih (t0 + 1) h
        refine ⟨by omega, by omega, h3, fun w hw1 hw2 => ?_⟩
        rcases Nat.eq_or_lt_of_le hw1 with heq | hlt
        · subst heq
          simpa using hc
        · exact h4 w (by omega) hw2

theorem firstHit_complete (cond : Nat → Bool) (n t0 u : Nat)
    (h1 : t0 ≤ u) (h2 : u < t0 + n) (h3 : cond u = true)
    (h4 : ∀ w, t0 ≤ w → w < u → cond w = false) :
    firstHit cond n t0 = some u := by
  induction n generalizing t0 with
  | zero => omega
  | succ n ih =>
      by_cases hc : cond t0
      · have heq : t0 = u := by
          by_contra hne
          have := h4 t0 le_rfl (by omega)
          simp [this] at hc
        subst heq
        simp [firstHit, hc]
      · have hne : t0 ≠ u := fun heq => by simp [heq, h3] at hc
        simp only [firstHit, hc, if_false]
        exact ih (t0 + 1) (by omega) (by omega) (fun w hw1 hw2 => h4 w (by omega) hw2)

theorem firstHit_isSome (cond : Nat → Bool) (n t0 u : Nat)
    (h1 : t0 ≤ u) (h2 : u < t0 + n) (h3 : cond u = true) :
    ∃ w, firstHit cond n t0 = some w := by
  induction n generalizing t0 with
  | zero => omega
  | succ n ih =>
      by_cases hc : cond t0
      · exact ⟨t0, by simp [firstHit, hc]⟩
      · have hne : t0 ≠ u := fun heq => by simp [heq, h3] at hc
        simp only [firstHit, hc, if_false]
        exact ih (t0 + 1) (by omega) (by omega)

theorem firstHit_congr (cond cond2 : Nat → Bool) (n t0 : Nat)
    (h : ∀ u, t0 ≤ u → u < t0 + n → cond u = cond2 u) :
    firstHit cond n t0 = firstHit cond2 n t0 := by
  induction n generalizing t0 with
  | zero => rfl
  | succ n ih =>
      have h0 := h t0 le_rfl (by omega)
      by_cases hc : cond t0
      · simp [firstHit, hc, h0 ▸ hc]
      · have hc2 : cond2 t0 = false := by rw [← h0]; simpa using hc
        have hcf : cond t0 = false := by simpa using hc
        simp only [firstHit, hc2, hcf, if_false]
        exact ih (t0 + 1) (fun u hu1 hu2 => h u (by omega) (by omega))

/-! ## The findSlot loop follows the closed-form probe sequence -/

theorem probeIdx_lt (dim hash t : Nat) (hdim : 0 < dim) : probeIdx dim hash t < dim :=
  Nat.mod_lt _ hdim

theorem probeIdx_eq_mod (k hash t : Nat) :
    probeIdx (2 ^ k) hash t = (hash % 2 ^ k + tri t) % 2 ^ k := by
  unfold probeIdx
  rw [Nat.and_pow_two_sub_one_eq_mod]

/-- Injectivity of the probe sequence on the first `2 ^ k` steps. -/
theorem probeIdx_injective (k hash : Nat) {a b : Nat}
    (ha : a < 2 ^ k) (hb : b < 2 ^ k)
    (h : probeIdx (2 ^ k) hash a = probeIdx (2 ^ k) hash b) : a = b := by
  rw [probeIdx_eq_mod, probeIdx_eq_mod] at h
  have h2 : tri a % 2 ^ k = tri b % 2 ^ k := by
    have := Nat.ModEq.add_left_cancel' (hash % 2 ^ k) (h : _ ≡ _ [MOD 2 ^ k])
    exact this
  exact tri_mod_injective k ha hb h2

/-- Surjectivity: every slot of a `2 ^ k`-sized table is visited within the
first `2 ^ k` probe steps. -/
theorem probeIdx_surjective (k hash i : Nat) (hi : i < 2 ^ k) :
    ∃ t < 2 ^ k, probeIdx (2 ^ k) hash t = i := by
  have hpos : 0 < 2 ^ k := Nat.pos_pow_of_pos k (by omega)
  let f : Fin (2 ^ k) → Fin (2 ^ k) :=
    fun t => ⟨probeIdx (2 ^ k) hash t.1, probeIdx_lt _ _ _ hpos⟩
  have hinj : Function.Injective f := by
    intro a b hab
    have := probeIdx_injective k hash a.2 b.2 (congrArg Fin.val hab)
    exact Fin.ext this
  have hsurj : Function.Surjective f := Finite.surjective_of_injective hinj
  obtain ⟨t, ht⟩ := hsurj ⟨i, hi⟩
  exact ⟨t.1, t.2, congrArg Fin.val ht⟩

/-- One unfolding step: from probe position `t`, the loop state is slot
`probeIdx dim hash t` with step counter `t + 1`, and the next state is
probe position `t + 1`. -/
theorem findSlotAux_eq_firstHit (st : StringTable) (hash : Nat) (s : List Nat)
    (k : Nat) (hdim : st.tabledim = 2 ^ k) (n t : Nat) :
    findSlotAux st hash s n (probeIdx st.tabledim hash t) (t + 1) =
      (firstHit (fun u => slotCond st hash s (probeIdx st.tabledim hash u)) n t).map
        (probeIdx st.tabledim hash) := by
  induction n generalizing t with
  | zero => rfl
  | succ n ih =>
      by_cases hc : slotCond st hash s (probeIdx st.tabledim hash t)
      · simp [findSlotAux, firstHit, hc]
      · have hstep : (probeIdx st.tabledim hash t + (t + 1)) &&& (st.tabledim - 1) =
            probeIdx st.tabledim hash (t + 1) := by
          rw [hdim]
          rw [Nat.and_pow_two_sub_one_eq_mod, probeIdx_eq_mod, probeIdx_eq_mod,
            Nat.mod_add_mod]
          have htri : tri (t + 1) = tri t + (t + 1) := rfl
          rw [htri]
          congr 1
          omega
        simp only [findSlotAux, firstHit, hc, if_false]
        rw [hstep]
        exact ih (t + 1)

/-- `findSlot` in closed form: the image under the probe sequence of the
first probe step whose slot passes the acceptance test. -/
theorem findSlot_eq_firstHit (st : StringTable) (hash : Nat) (s : List Nat)
    (k : Nat) (hdim : st.tabledim = 2 ^ k) :
    findSlot st hash s =
      (firstHit (fun u => slotCond st hash s (probeIdx st.tabledim hash u))
        st.tabledim 0).map (probeIdx st.tabledim hash) := by
  have h0 : hash &&& (st.tabledim - 1) = probeIdx st.tabledim hash 0 := by
    rw [hdim]
    rw [Nat.and_pow_two_sub_one_eq_mod, probeIdx_eq_mod]
    have : tri 0 = 0 := rfl
    rw [this, Nat.add_zero, Nat.mod_mod_of_dvd _ dvd_rfl]
  unfold findSlot
  rw [h0]
  exact findSlotAux_eq_firstHit st hash s k hdim st.tabledim 0

end StringTableC

namespace StringTableC

/-! ## findSlot characterization and completeness -/

theorem slotCond_of_empty (st : StringTable) (hash : Nat) (s : List Nat) (i : Nat)
    (h : (entryAt st i).vptr = 0) : slotCond st hash s i = true := by
  simp [slotCond, slotCondE, h]

theorem findSlot_some_spec (st : StringTable) (hash : Nat) (s : List Nat)
    (k : Nat) (hdim : st.tabledim = 2 ^ k) (i : Nat)
    (h : findSlot st hash s = some i) :
    ∃ t, t < st.tabledim ∧ probeIdx st.tabledim hash t = i ∧
      slotCond st hash s i = true ∧
      ∀ u, u < t → slotCond st hash s (probeIdx st.tabledim hash u) = false := by
  rw [findSlot_eq_firstHit st hash s k hdim] at h
  obtain ⟨t, ht, hmap⟩ := Option.map_eq_some'.mp h
  obtain ⟨h1, h2, h3, h4⟩ := firstHit_eq_some _ _ _ _ ht
  refine ⟨t, by omega, hmap, hmap ▸ h3, ?_⟩
  intro u hu
  exact h4 u (by omega) hu

theorem findSlot_isSome_of_empty (st : StringTable) (hash : Nat) (s : List Nat)
    (k : Nat) (hdim : st.tabledim = 2 ^ k)
    (hempty : ∃ i < st.tabledim, (entryAt st i).vptr = 0) :
    ∃ j, findSlot st hash s = some j := by
  obtain ⟨i, hi, hiv⟩ := hempty
  obtain ⟨t, ht, hpt⟩ := probeIdx_surjective k hash i (hdim ▸ hi)
  have hcond : slotCond st hash s (probeIdx st.tabledim hash t) = true := by
    rw [hdim, hpt]
    exact slotCond_of_empty st hash s i hiv
  obtain ⟨w, hw⟩ :=
    firstHit_isSome (fun u => slotCond st hash s (probeIdx st.tabledim hash u))
      st.tabledim 0 t (by omega) (by omega) hcond
  rw [findSlot_eq_firstHit st hash s k hdim, hw]
  exact ⟨probeIdx st.tabledim hash w, rfl⟩

/-- `findSlot` reads only `tabledim` and the acceptance test of each slot. -/
theorem findSlot_congr (st st2 : StringTable) (hash : Nat) (s : List Nat)
    (hdim : st2.tabledim = st.tabledim)
    (hcond : ∀ i, slotCond st2 hash s i = slotCond st hash s i) :
    findSlot st2 hash s = findSlot st hash s := by
  have aux : ∀ n i j, findSlotAux st2 hash s n i j = findSlotAux st hash s n i j := by
    intro n
    induction n with
    | zero => intro i j; rfl
    | succ n ih =>
        intro i j
        simp only [findSlotAux, hcond i, hdim]
        by_cases hc : slotCond st hash s i
        · simp [hc]
        · simp [hc, ih]
  unfold findSlot
  rw [hdim]
  exact aux _ _ _

/-! ## The representation invariant -/

/-- A table entry is well formed for a pool list: if the slot is occupied,
its handle decodes to a record created by `allocValue` for some byte
string `b`, and its stored hash is the hash of `b`. -/
def entryOK (pools : List Pool) (e : StringEntry) : Prop :=
  e.vptr ≠ 0 → ∃ b : List Nat, getSV pools e.vptr = some (svOf b) ∧ e.hash = calcHash b

/-- Every occupied slot can be re-found by probing from its stored hash
with its record's bytes: the central retrievability invariant. -/
def Findable (st : StringTable) : Prop :=
  ∀ i < st.tabledim, (entryAt st i).vptr ≠ 0 →
    ∀ b : List Nat, getSV st.pools (entryAt st i).vptr = some (svOf b) →
      findSlot st (entryAt st i).hash b = some i

/-- Bump-allocation discipline: every record of the current pool lies
strictly below the fill cursor. -/
def poolsDisc (st : StringTable) : Prop :=
  ∀ r ∈ (st.pools.getD (st.pools.length - 1) emptyPool).recs, r.1 < st.nfill

/-- The representation invariant of a `StringTable`. -/
structure Inv (st : StringTable) : Prop where
  dim_pow : ∃ k, st.tabledim = 2 ^ k
  dim_ge : 32 ≤ st.tabledim
  tbl_len : st.table.length = st.tabledim
  load : 5 * st.count ≤ 4 * st.tabledim
  occ : occupied st.table ≤ st.count
  entries : ∀ i < st.tabledim, entryOK st.pools (entryAt st i)
  findable : Findable st
  disc : poolsDisc st

theorem take_append_cancel (b : List Nat) (t : List Nat) :
    (b ++ t).take b.length = b := by
  induction b with
  | nil => rfl
  | cons a b ih => simp [ih]

/-- A well-formed occupied entry for the byte string `b` passes the
acceptance test against the probe string `b`. -/
theorem slotCondE_matches (pools : List Pool) (e : StringEntry) (b : List Nat)
    (hg : getSV pools e.vptr = some (svOf b)) :
    slotCondE pools e.hash b e = true := by
  simp only [slotCondE, hg]
  have h1 : (svOf b).length = b.length := rfl
  have h2 : (svOf b).lstring.take b.length = b := take_append_cancel b [0]
  simp [h1, h2]

/-- A failing acceptance test means the slot is occupied. -/
theorem vptr_ne_zero_of_slotCondE_false (pools : List Pool) (hash : Nat)
    (s : List Nat) (e : StringEntry) (h : slotCondE pools hash s e = false) :
    e.vptr ≠ 0 := by
  intro hzero
  simp [slotCondE, hzero] at h

/-- A passing acceptance test on an occupied well-formed slot means the
probe string equals the record's byte string. -/
theorem slotCondE_true_elim (pools : List Pool) (hash : Nat) (s : List Nat)
    (e : StringEntry) (b : List Nat) (hv : e.vptr ≠ 0)
    (hg : getSV pools e.vptr = some (svOf b))
    (h : slotCondE pools hash s e = true) : e.hash = hash ∧ b = s := by
  simp only [slotCondE, hg] at h
  rcases Bool.or_eq_true_iff.mp h with h0 | h1
  · exact absurd (by simpa using h0) hv
  · obtain ⟨hh, hrest⟩ := Bool.and_eq_true_iff.mp h1
    obtain ⟨hlen, htake⟩ := Bool.and_eq_true_iff.mp hrest
    have hlen2 : b.length = s.length := by simpa [svOf] using hlen
    have htake2 : (b ++ [0]).take s.length = s := by simpa [svOf] using htake
    rw [← hlen2, take_append_cancel] at htake2
    exact ⟨by simpa using hh, htake2⟩

/-- The acceptance test depends on the pools only through the records of
the handles it dereferences. -/
theorem slotCondE_pools_congr (pools pools2 : List Pool) (hash : Nat)
    (s : List Nat) (e : StringEntry) (hok : entryOK pools e)
    (hpres : ∀ v sv, getSV pools v = some sv → getSV pools2 v = some sv) :
    slotCondE pools2 hash s e = slotCondE pools hash s e := by
  by_cases hv : e.vptr = 0
  · simp [slotCondE, hv]
  · obtain ⟨b, hg, hh⟩ := hok hv
    simp [slotCondE, hg, hpres _ _ hg]

end StringTableC

namespace StringTableC

/-! ## allocValue characterization -/

/-- Whether `allocValue` must start a fresh pool. -/
def allocFresh (st : StringTable) (s : List Nat) : Bool :=
  st.pools.length == 0 || decide (st.nfill + (SV_SIZE + s.length + 1) > POOL_SIZE)

/-- The offset at which `allocValue` places the record (the value of
`nfill` at the moment of the store). -/
def allocOff (st : StringTable) (s : List Nat) : Nat :=
  if allocFresh st s then 0 else st.nfill

/-- The pool count after `allocValue` (the C `npools` at handle-encoding
time). -/
def allocNPools (st : StringTable) (s : List Nat) : Nat :=
  if allocFresh st s then st.pools.length + 1 else st.pools.length

theorem POOL_SIZE_eq : POOL_SIZE = 2 ^ 12 := rfl

theorem allocValue_fst (st : StringTable) (s : List Nat) :
    (allocValue st s).1 =
      (allocNPools st s <<< POOL_BITS ||| allocOff st s) % U32 := by
  unfold allocValue allocNPools allocOff
  cases hf : allocFresh st s with
  | true =>
      unfold allocFresh at hf
      simp [hf]
  | false =>
      unfold allocFresh at hf
      simp [hf]

theorem allocValue_table (st : StringTable) (s : List Nat) :
    (allocValue st s).2.table = st.table := rfl

theorem allocValue_tabledim (st : StringTable) (s : List Nat) :
    (allocValue st s).2.tabledim = st.tabledim := rfl

theorem allocValue_count (st : StringTable) (s : List Nat) :
    (allocValue st s).2.count = st.count := rfl

theorem allocValue_nfill (st : StringTable) (s : List Nat) :
    (allocValue st s).2.nfill =
      allocOff st s + (SV_SIZE + s.length + 1) + negMod8 (SV_SIZE + s.length + 1) := by
  unfold allocValue allocOff
  cases hf : allocFresh st s with
  | true =>
      unfold allocFresh at hf
      simp [hf]
  | false =>
      unfold allocFresh at hf
      simp [hf]

theorem allocValue_pools_fresh (st : StringTable) (s : List Nat)
    (h : allocFresh st s = true) :
    (allocValue st s).2.pools =
      st.pools ++
        [{ psize := if SV_SIZE + s.length + 1 > POOL_SIZE then SV_SIZE + s.length + 1
                    else POOL_SIZE,
           recs := [(0, svOf s)] }] := by
  unfold allocValue
  unfold allocFresh at h
  simp only [h, if_true]
  rw [setLast_append_singleton]

theorem allocValue_pools_cont (st : StringTable) (s : List Nat)
    (h : allocFresh st s = false) :
    (allocValue st s).2.pools =
      setLast (fun p => { p with recs := (st.nfill, svOf s) :: p.recs }) st.pools := by
  unfold allocValue
  unfold allocFresh at h
  simp [h]

theorem allocValue_pools_length (st : StringTable) (s : List Nat) :
    (allocValue st s).2.pools.length = allocNPools st s := by
  by_cases h : allocFresh st s
  · rw [allocValue_pools_fresh st s h]
    simp [allocNPools, h]
  · rw [allocValue_pools_cont st s (by simpa using h)]
    simp [allocNPools, h, length_setLast]

theorem allocOff_lt (st : StringTable) (s : List Nat) :
    allocOff st s < POOL_SIZE := by
  unfold allocOff
  cases hf : allocFresh st s with
  | true => simp [POOL_SIZE_eq]
  | false =>
      rw [if_neg Bool.false_ne_true]
      simp only [allocFresh, Bool.or_eq_false_iff, beq_eq_false_iff_ne, ne_eq,
        decide_eq_false_iff_not, not_lt] at hf
      omega

theorem allocNPools_pos (st : StringTable) (s : List Nat) :
    1 ≤ allocNPools st s := by
  unfold allocNPools
  cases hf : allocFresh st s with
  | true => simp
  | false =>
      rw [if_neg Bool.false_ne_true]
      simp only [allocFresh, Bool.or_eq_false_iff, beq_eq_false_iff_ne, ne_eq,
        decide_eq_false_iff_not, not_lt] at hf
      omega

/-- The handle returned by `allocValue`, decoded: for pool counts below
`2 ^ 20` the packed `uint32_t` does not wrap, so the handle is exactly
`npools * POOL_SIZE + offset`. -/
theorem allocValue_fst_eq_add (st : StringTable) (s : List Nat)
    (hb : st.pools.length + 1 < 2 ^ 20) :
    (allocValue st s).1 = allocNPools st s * POOL_SIZE + allocOff st s := by
  rw [allocValue_fst]
  have hnp : allocNPools st s < 2 ^ 20 := by
    unfold allocNPools
    by_cases h : allocFresh st s <;> simp [h] <;> omega
  have hoff := allocOff_lt st s
  have hor : allocNPools st s <<< POOL_BITS ||| allocOff st s =
      allocNPools st s * POOL_SIZE + allocOff st s := by
    have := Nat.mul_add_lt_is_or (b := allocOff st s) (i := 12)
      (by simpa [POOL_SIZE_eq] using hoff) (allocNPools st s)
    rw [Nat.shiftLeft_eq]
    show allocNPools st s * 2 ^ 12 ||| allocOff st s = _
    rw [POOL_SIZE_eq]
    rw [Nat.mul_comm (allocNPools st s) (2 ^ 12)]
    omega
  rw [hor]
  apply Nat.mod_eq_of_lt
  have h1 : allocNPools st s * POOL_SIZE ≤ (2 ^ 20 - 1) * POOL_SIZE :=
    Nat.mul_le_mul_right _ (by omega)
  have h2 : POOL_SIZE = 2 ^ 12 := rfl
  have h3 : U32 = 2 ^ 32 := rfl
  have h4 : (2 ^ 20 - 1) * 2 ^ 12 = 2 ^ 32 - 2 ^ 12 := by norm_num
  omega

theorem allocValue_fst_ne_zero (st : StringTable) (s : List Nat)
    (hb : st.pools.length + 1 < 2 ^ 20) : (allocValue st s).1 ≠ 0 := by
  rw [allocValue_fst_eq_add st s hb]
  have := allocNPools_pos st s
  have : 1 * POOL_SIZE ≤ allocNPools st s * POOL_SIZE := Nat.mul_le_mul_right _ this
  have hp : POOL_SIZE = 2 ^ 12 := rfl
  omega

end StringTableC

namespace StringTableC

/-! ## getSV across allocValue -/

theorem getD_append_last {α : Type} (l : List α) (x d : α) :
    (l ++ [x]).getD l.length d = x := by
  induction l with
  | nil => rfl
  | cons a l ih => simp [ih]

theorem getSV_some_idx_lt (pools : List Pool) (v : Nat) (sv : StringValue)
    (h : getSV pools v = some sv) : (v >>> POOL_BITS) - 1 < pools.length := by
  by_contra hge
  push_neg at hge
  have hd : pools.getD ((v >>> POOL_BITS) - 1) emptyPool = emptyPool :=
    List.getD_eq_default _ _ hge
  by_cases hv : v = 0
  · simp [getSV, hv] at h
  · rw [getSV, if_neg hv, hd] at h
    simp [emptyPool] at h

theorem getSV_ne_zero (pools : List Pool) (v : Nat) (sv : StringValue)
    (h : getSV pools v = some sv) : v ≠ 0 := by
  intro hv
  simp [getSV, hv] at h

/-- Records readable before an allocation are unchanged by it (the bump
allocator never writes over a previously placed record). -/
theorem getSV_allocValue_pres (st : StringTable) (s : List Nat)
    (hdisc : poolsDisc st) (v : Nat) (sv : StringValue)
    (h : getSV st.pools v = some sv) :
    getSV (allocValue st s).2.pools v = some sv := by
  have hv0 : v ≠ 0 := getSV_ne_zero _ _ _ h
  have hidx := getSV_some_idx_lt st.pools v sv h
  cases hf : allocFresh st s with
  | true =>
      rw [allocValue_pools_fresh st s hf]
      rw [getSV, if_neg hv0] at h ⊢
      rw [getD_append_left _ _ _ _ hidx]
      exact h
  | false =>
      rw [allocValue_pools_cont st s hf]
      rw [getSV, if_neg hv0] at h ⊢
      by_cases hlast : (v >>> POOL_BITS) - 1 + 1 < st.pools.length
      · rw [getD_setLast_lt _ _ _ _ hlast]
        exact h
      · have hidx2 : (v >>> POOL_BITS) - 1 = st.pools.length - 1 := by omega
        have hnonnil : st.pools ≠ [] := by
          intro hnil
          rw [hnil] at hidx
          simp at hidx
        rw [hidx2] at h ⊢
        rw [getD_setLast_last _ _ _ hnonnil]
        obtain ⟨r, hr, hr2⟩ := Option.map_eq_some'.mp h
        have hrmem := List.mem_of_find?_eq_some hr
        have hrkey : r.1 = v &&& (POOL_SIZE - 1) := by
          have := List.find?_some hr
          simpa using this
        have hrlt : r.1 < st.nfill := hdisc r hrmem
        have hneq : st.nfill ≠ v &&& (POOL_SIZE - 1) := by omega
        show ((((st.nfill, svOf s) :: (st.pools.getD (st.pools.length - 1) emptyPool).recs).find?
            (fun r => r.1 == v &&& (POOL_SIZE - 1))).map (fun r => r.2)) = some sv
        rw [List.find?_cons_of_neg _ (by simpa using hneq), hr]
        simpa using hr2

/-- The record just placed by `allocValue` is readable through the handle
it returned. -/
theorem getSV_allocValue_new (st : StringTable) (s : List Nat)
    (hb : st.pools.length + 1 < 2 ^ 20) :
    getSV (allocValue st s).2.pools (allocValue st s).1 = some (svOf s) := by
  have hv := allocValue_fst_eq_add st s hb
  have hvne := allocValue_fst_ne_zero st s hb
  have hoff := allocOff_lt st s
  have hNpos := allocNPools_pos st s
  have hshift : (allocValue st s).1 >>> POOL_BITS = allocNPools st s := by
    rw [hv]
    show _ >>> 12 = _
    rw [Nat.shiftRight_eq_div_pow, POOL_SIZE_eq, Nat.mul_comm, Nat.mul_add_div
      (Nat.pos_pow_of_pos 12 (by omega)),
      Nat.div_eq_of_lt (POOL_SIZE_eq ▸ hoff), Nat.add_zero]
  have hmask : (allocValue st s).1 &&& (POOL_SIZE - 1) = allocOff st s := by
    rw [hv, POOL_SIZE_eq, Nat.and_pow_two_sub_one_eq_mod,
      Nat.mul_comm (allocNPools st s) (2 ^ 12), Nat.mul_add_mod,
      Nat.mod_eq_of_lt (POOL_SIZE_eq ▸ hoff)]
  rw [getSV, if_neg hvne, hshift, hmask]
  cases hf : allocFresh st s with
  | true =>
      rw [allocValue_pools_fresh st s hf]
      have hN : allocNPools st s = st.pools.length + 1 := by simp [allocNPools, hf]
      have hO : allocOff st s = 0 := by simp [allocOff, hf]
      rw [hN, hO]
      have : st.pools.length + 1 - 1 = st.pools.length := by omega
      rw [this, getD_append_last]
      simp

  | false =>
      rw [allocValue_pools_cont st s hf]
      have hN : allocNPools st s = st.pools.length := by simp [allocNPools, hf]
      have hO : allocOff st s = st.nfill := by simp [allocOff, hf]
      have hnonnil : st.pools ≠ [] := by
        intro hnil
        rw [allocNPools, allocFresh] at hNpos
        rw [hnil] at hNpos
        simp [hf] at hNpos
        rw [allocFresh, hnil] at hf
        simp at hf
      rw [hN, hO, getD_setLast_last _ _ _ hnonnil]
      simp

/-- The bump discipline is maintained by `allocValue`. -/
theorem poolsDisc_allocValue (st : StringTable) (s : List Nat)
    (hdisc : poolsDisc st) : poolsDisc (allocValue st s).2 := by
  intro r hr
  rw [allocValue_nfill]
  have hnb : 1 ≤ SV_SIZE + s.length + 1 := by omega
  cases hf : allocFresh st s with
  | true =>
      rw [allocValue_pools_fresh st s hf] at hr
      have hlen : ((allocValue st s).2.pools).length = st.pools.length + 1 := by
        rw [allocValue_pools_length]
        simp [allocNPools, hf]
      rw [allocValue_pools_fresh st s hf] at hlen
      have : st.pools.length + 1 - 1 = st.pools.length := by omega
      rw [hlen, this, getD_append_last] at hr
      simp only [List.mem_singleton] at hr
      have h1 : r.1 = 0 := by rw [hr]
      rw [h1]
      omega
  | false =>
      rw [allocValue_pools_cont st s hf] at hr
      have hO : allocOff st s = st.nfill := by simp [allocOff, hf]
      have hnonnil : st.pools ≠ [] := by
        intro hnil
        rw [allocFresh, hnil] at hf
        simp at hf
      have hlen2 : (setLast (fun p => { p with recs := (st.nfill, svOf s) :: p.recs })
          st.pools).length = st.pools.length := length_setLast _ _
      rw [hlen2, getD_setLast_last _ _ _ hnonnil] at hr
      rcases List.mem_cons.mp hr with hhead | htail
      · have h1 : r.1 = st.nfill := by rw [hhead]
        rw [h1, hO]
        omega
      · have := hdisc r htail
        rw [hO]
        omega

end StringTableC

namespace StringTableC

/-! ## Placing one entry preserves findability -/

theorem setEntry_tabledim (st : StringTable) (i : Nat) (e : StringEntry) :
    (setEntry st i e).tabledim = st.tabledim := rfl

theorem setEntry_pools (st : StringTable) (i : Nat) (e : StringEntry) :
    (setEntry st i e).pools = st.pools := rfl

theorem setEntry_table_length (st : StringTable) (i : Nat) (e : StringEntry) :
    (setEntry st i e).table.length = st.table.length := by
  simp [setEntry]

theorem entryAt_setEntry_self (st : StringTable) (i : Nat) (e : StringEntry)
    (hi : i < st.table.length) : entryAt (setEntry st i e) i = e :=
  getD_set_self _ _ _ _ hi

theorem entryAt_setEntry_ne (st : StringTable) (i : Nat) (e : StringEntry) (j : Nat)
    (h : i ≠ j) : entryAt (setEntry st i e) j = entryAt st j :=
  getD_set_ne _ _ _ _ _ h

theorem slotCond_congr_entry (st st2 : StringTable) (hash : Nat) (s : List Nat) (j : Nat)
    (hpools : st2.pools = st.pools) (hentry : entryAt st2 j = entryAt st j) :
    slotCond st2 hash s j = slotCond st hash s j := by
  unfold slotCond
  rw [hpools, hentry]

theorem svOf_inj {b b2 : List Nat} (h : svOf b = svOf b2) : b = b2 := by
  have h1 : b.length = b2.length := congrArg StringValue.length h
  have h2 : b ++ [0] = b2 ++ [0] := congrArg StringValue.lstring h
  have h3 := congrArg (List.take b.length) h2
  rw [take_append_cancel, h1, take_append_cancel] at h3
  exact h3

/-- The placement lemma: storing `{hash b, v}` (a fresh handle whose record
holds the bytes `b`) in an empty slot returned by `findSlot` keeps every
entry well formed, makes the new entry findable, and keeps every other
occupied entry findable. -/
theorem place_spec
    (st : StringTable) (k : Nat) (hdim : st.tabledim = 2 ^ k)
    (hlen : st.table.length = st.tabledim)
    (hentries : ∀ j < st.tabledim, entryOK st.pools (entryAt st j))
    (b : List Nat) (v : Nat) (hv : v ≠ 0)
    (hgv : getSV st.pools v = some (svOf b))
    (i : Nat) (hslot : findSlot st (calcHash b) b = some i)
    (hempty : (entryAt st i).vptr = 0) :
    i < st.tabledim ∧
    entryAt (setEntry st i { hash := calcHash b, vptr := v }) i =
      { hash := calcHash b, vptr := v } ∧
    (∀ j, j ≠ i → entryAt (setEntry st i { hash := calcHash b, vptr := v }) j =
      entryAt st j) ∧
    (∀ j < st.tabledim, entryOK st.pools
      (entryAt (setEntry st i { hash := calcHash b, vptr := v }) j)) ∧
    findSlot (setEntry st i { hash := calcHash b, vptr := v }) (calcHash b) b = some i ∧
    (Findable st → Findable (setEntry st i { hash := calcHash b, vptr := v })) := by
  set e : StringEntry := { hash := calcHash b, vptr := v } with he
  set st2 := setEntry st i e with hst2
  have hdimpos : 0 < st.tabledim := by rw [hdim]; exact Nat.pos_pow_of_pos k (by omega)
  obtain ⟨t, ht, hpt, hcondt, hpref⟩ := findSlot_some_spec st (calcHash b) b k hdim i hslot
  have hi : i < st.tabledim := by rw [← hpt]; exact probeIdx_lt _ _ _ hdimpos
  have hself : entryAt st2 i = e := entryAt_setEntry_self st i e (by omega)
  have hother : ∀ j, j ≠ i → entryAt st2 j = entryAt st j := by
    intro j hj
    exact entryAt_setEntry_ne st i e j (fun hh => hj hh.symm)
  have hdim2 : st2.tabledim = 2 ^ k := hdim
  -- the new entry is accepted at slot i
  have hcond2i : slotCond st2 (calcHash b) b i = true := by
    unfold slotCond
    rw [setEntry_pools, hself]
    exact slotCondE_matches st.pools e b hgv
  -- the probe prefix of b in st2 is unchanged from st
  have hpref2 : ∀ u, u < t →
      slotCond st2 (calcHash b) b (probeIdx st.tabledim (calcHash b) u) = false := by
    intro u hu
    have hne : probeIdx st.tabledim (calcHash b) u ≠ i := by
      intro hequ
      have : u = t := by
        apply probeIdx_injective k (calcHash b) (hdim ▸ hu.trans ht) (hdim ▸ ht)
        rw [← hdim]
        rw [hequ, hpt]
      omega
    rw [slotCond_congr_entry st st2 (calcHash b) b _ (setEntry_pools st i e)
      (hother _ hne)]
    exact hpref u hu
  have hfind2 : findSlot st2 (calcHash b) b = some i := by
    rw [findSlot_eq_firstHit st2 (calcHash b) b k hdim2]
    have : firstHit
        (fun u => slotCond st2 (calcHash b) b (probeIdx st2.tabledim (calcHash b) u))
        st2.tabledim 0 = some t := by
      apply firstHit_complete
      · omega
      · show t < 0 + st2.tabledim
        rw [setEntry_tabledim]
        omega
      · show slotCond st2 (calcHash b) b (probeIdx st2.tabledim (calcHash b) t) = true
        rw [setEntry_tabledim, hpt]
        exact hcond2i
      · intro w hw1 hw2
        show slotCond st2 (calcHash b) b (probeIdx st2.tabledim (calcHash b) w) = false
        rw [setEntry_tabledim]
        exact hpref2 w hw2
    rw [this]
    show some (probeIdx st2.tabledim (calcHash b) t) = some i
    rw [setEntry_tabledim, hpt]
  refine ⟨hi, hself, hother, ?_, hfind2, ?_⟩
  · -- all entries remain well formed
    intro j hj
    by_cases hji : j = i
    · subst hji
      rw [hself]
      intro _
      exact ⟨b, hgv, rfl⟩
    · rw [hother j hji]
      exact hentries j hj
  · -- findability is preserved
    intro hfindable
    intro j hj hjv b2 hb2
    by_cases hji : j = i
    · subst hji
      rw [hself] at hjv hb2 ⊢
      have hbeq : b2 = b := by
        have hb2x : getSV st.pools v = some (svOf b2) := hb2
        rw [hgv] at hb2x
        exact (svOf_inj (Option.some.inj hb2x)).symm
      subst hbeq
      exact hfind2
    · rw [hother j hji] at hjv hb2 ⊢
      have hold := hfindable j (by rw [setEntry_tabledim] at hj; exact hj) hjv b2 hb2
      obtain ⟨tj, htj, hptj, hcondtj, hprefj⟩ :=
        findSlot_some_spec st (entryAt st j).hash b2 k hdim j hold
      have hprefj2 : ∀ u, u < tj →
          slotCond st2 (entryAt st j).hash b2
            (probeIdx st.tabledim (entryAt st j).hash u) = false := by
        intro u hu
        have hne : probeIdx st.tabledim (entryAt st j).hash u ≠ i := by
          intro hequ
          have := hprefj u hu
          rw [hequ] at this
          have hocc := vptr_ne_zero_of_slotCondE_false _ _ _ _ this
          exact hocc hempty
        rw [slotCond_congr_entry st st2 _ _ _ (setEntry_pools st i e) (hother _ hne)]
        exact hprefj u hu
      have hcondj2 : slotCond st2 (entryAt st j).hash b2 j = true := by
        rw [slotCond_congr_entry st st2 _ _ _ (setEntry_pools st i e) (hother _ hji)]
        exact hcondtj
      rw [findSlot_eq_firstHit st2 _ b2 k hdim2]
      have : firstHit
          (fun u => slotCond st2 (entryAt st j).hash b2
            (probeIdx st2.tabledim (entryAt st j).hash u))
          st2.tabledim 0 = some tj := by
        apply firstHit_complete
        · omega
        · show tj < 0 + st2.tabledim
          rw [setEntry_tabledim]
          omega
        · show slotCond st2 _ b2 (probeIdx st2.tabledim _ tj) = true
          rw [setEntry_tabledim, hptj]
          exact hcondj2
        · intro w hw1 hw2
          show slotCond st2 _ b2 (probeIdx st2.tabledim _ w) = false
          rw [setEntry_tabledim]
          exact hprefj2 w hw2
      rw [this]
      show some (probeIdx st2.tabledim _ tj) = some j
      rw [setEntry_tabledim, hptj]

end StringTableC

namespace StringTableC

/-! ## grow: field preservation and rehash correctness -/

theorem growStep_cases (otab : List StringEntry) (acc : StringTable) (i : Nat) :
    growStep otab acc i = acc ∨
    ∃ k2, growStep otab acc i =
      { acc with table := acc.table.set k2 (otab.getD i emptyEntry) } := by
  unfold growStep
  split
  · left
    rfl
  · split
    · left
      rfl
    · split
      · left
        rfl
      · right
        exact ⟨_, rfl⟩

theorem growStep_fields (otab : List StringEntry) (acc : StringTable) (i : Nat) :
    (growStep otab acc i).pools = acc.pools ∧
    (growStep otab acc i).nfill = acc.nfill ∧
    (growStep otab acc i).count = acc.count ∧
    (growStep otab acc i).tabledim = acc.tabledim ∧
    (growStep otab acc i).table.length = acc.table.length := by
  rcases growStep_cases otab acc i with h | ⟨k2, h⟩
  · rw [h]
    exact ⟨rfl, rfl, rfl, rfl, rfl⟩
  · rw [h]
    exact ⟨rfl, rfl, rfl, rfl, by simp⟩

theorem growFold_fields (otab : List StringEntry) (l : List Nat) (acc : StringTable) :
    (l.foldl (growStep otab) acc).pools = acc.pools ∧
    (l.foldl (growStep otab) acc).nfill = acc.nfill ∧
    (l.foldl (growStep otab) acc).count = acc.count ∧
    (l.foldl (growStep otab) acc).tabledim = acc.tabledim ∧
    (l.foldl (growStep otab) acc).table.length = acc.table.length := by
  induction l generalizing acc with
  | nil => exact ⟨rfl, rfl, rfl, rfl, rfl⟩
  | cons a l ih =>
      have h1 := growStep_fields otab acc a
      have h2 := ih (growStep otab acc a)
      simp only [List.foldl_cons]
      exact ⟨h2.1.trans h1.1, h2.2.1.trans h1.2.1, h2.2.2.1.trans h1.2.2.1,
        h2.2.2.2.1.trans h1.2.2.2.1, h2.2.2.2.2.trans h1.2.2.2.2⟩

theorem occupied_append (a b : List StringEntry) :
    occupied (a ++ b) = occupied a + occupied b := by
  unfold occupied
  rw [List.filter_append, List.length_append]

theorem occupied_take_succ (tbl : List StringEntry) (n : Nat) (hn : n < tbl.length) :
    occupied (tbl.take (n + 1)) =
      occupied (tbl.take n) + (if (tbl.getD n emptyEntry).vptr = 0 then 0 else 1) := by
  induction tbl generalizing n with
  | nil => simp at hn
  | cons a tbl ih =>
      cases n with
      | zero =>
          have h1 : List.take 1 (a :: tbl) = [a] := rfl
          have h0 : List.take 0 (a :: tbl) = ([] : List StringEntry) := rfl
          rw [h1, h0, occupied_nil, occupied_cons, occupied_nil]
          have hg : (a :: tbl).getD 0 emptyEntry = a := rfl
          rw [hg]
          omega
      | succ n =>
          have hx := ih n (by simpa using hn)
          simp only [List.take_succ_cons]
          rw [occupied_cons, occupied_cons, hx]
          have : (a :: tbl).getD (n + 1) emptyEntry = tbl.getD n emptyEntry := rfl
          rw [this]
          omega

theorem occupied_take_le (tbl : List StringEntry) (n : Nat) :
    occupied (tbl.take n) ≤ n := by
  have h1 := occupied_le_length (tbl.take n)
  have h2 : (tbl.take n).length ≤ n := by
    rw [List.length_take]
    omega
  omega

end StringTableC

namespace StringTableC

/-- The first `n` iterations of the rehash loop of `grow`. -/
def growPrefix (st : StringTable) (n : Nat) : StringTable :=
  (List.range n).foldl (growStep st.table)
    { st with tabledim := 2 * st.tabledim,
              table := List.replicate (2 * st.tabledim) emptyEntry }

theorem grow_eq_growPrefix (st : StringTable) : grow st = growPrefix st st.tabledim := rfl

theorem growPrefix_succ (st : StringTable) (n : Nat) :
    growPrefix st (n + 1) = growStep st.table (growPrefix st n) n := by
  unfold growPrefix
  rw [List.range_succ, List.foldl_append]
  rfl

theorem growStep_occupied_eq (otab : List StringEntry) (acc : StringTable) (n : Nat)
    (b : List Nat) (inew : Nat)
    (hev : (otab.getD n emptyEntry).vptr ≠ 0)
    (hg : getSV acc.pools (otab.getD n emptyEntry).vptr = some (svOf b))
    (hf : findSlot acc (otab.getD n emptyEntry).hash b = some inew) :
    growStep otab acc n = setEntry acc inew (otab.getD n emptyEntry) := by
  unfold growStep
  rw [if_neg (by simpa using hev), hg]
  show (match findSlot acc (otab.getD n emptyEntry).hash
        ((svOf b).lstring.take (svOf b).length) with
      | none => acc
      | some k2 => { acc with table := acc.table.set k2 (otab.getD n emptyEntry) }) = _
  have htake : (svOf b).lstring.take (svOf b).length = b := take_append_cancel b [0]
  rw [htake, hf]
  rfl

/-- The full correctness of the rehash loop, proved by induction over the
processed prefix of the old entry array: fields other than the entry array
are untouched, occupancy does not increase, every copied entry stays well
formed and findable, and the entries of the new array are exactly copies
of the processed occupied old entries. -/
theorem growPrefix_spec (st : StringTable) (k : Nat)
    (hdim : st.tabledim = 2 ^ k)
    (hlen : st.table.length = st.tabledim)
    (hentries : ∀ j < st.tabledim, entryOK st.pools (entryAt st j))
    (hfindable : Findable st) :
    ∀ n, n ≤ st.tabledim →
    (growPrefix st n).pools = st.pools ∧
    (growPrefix st n).nfill = st.nfill ∧
    (growPrefix st n).count = st.count ∧
    (growPrefix st n).tabledim = 2 * st.tabledim ∧
    (growPrefix st n).table.length = 2 * st.tabledim ∧
    occupied (growPrefix st n).table ≤ occupied (st.table.take n) ∧
    (∀ j < 2 * st.tabledim, entryOK st.pools (entryAt (growPrefix st n) j)) ∧
    Findable (growPrefix st n) ∧
    (∀ jn < 2 * st.tabledim, (entryAt (growPrefix st n) jn).vptr ≠ 0 →
        ∃ jo, jo < n ∧ entryAt (growPrefix st n) jn = entryAt st jo) ∧
    (∀ jo, jo < n → (entryAt st jo).vptr ≠ 0 →
        ∃ jn, jn < 2 * st.tabledim ∧ entryAt (growPrefix st n) jn = entryAt st jo) := by
  intro n
  induction n with
  | zero =>
      intro _
      have hempty : ∀ j, entryAt (growPrefix st 0) j = emptyEntry := by
        intro j
        show (List.replicate (2 * st.tabledim) emptyEntry).getD j emptyEntry = emptyEntry
        by_cases hj : j < 2 * st.tabledim
        · exact getD_replicate _ _ _ _ hj
        · exact List.getD_eq_default _ _ (by simpa using hj)
      refine ⟨rfl, rfl, rfl, rfl, ?_, ?_, ?_, ?_, ?_, ?_⟩
      · show (List.replicate (2 * st.tabledim) emptyEntry).length = 2 * st.tabledim
        simp
      · show occupied (List.replicate (2 * st.tabledim) emptyEntry) ≤ _
        rw [occupied_replicate_empty]
        omega
      · intro j _ hv
        rw [hempty j] at hv
        exact absurd rfl hv
      · intro j _ hv
        rw [hempty j] at hv
        exact absurd rfl hv
      · intro jn _ hv
        rw [hempty jn] at hv
        exact absurd rfl hv
      · intro jo hjo
        omega
  | succ n ih =>
      intro hn1
      have hn : n ≤ st.tabledim := by omega
      have hnlt : n < st.tabledim := by omega
      obtain ⟨ihpools, ihnfill, ihcount, ihdim, ihlen, ihocc, ihent, ihfind, ihsrc, ihtgt⟩ :=
        ih hn
      rw [growPrefix_succ]
      by_cases hev : (entryAt st n).vptr = 0
      · -- the old slot n is empty: this iteration is a no-op
        have hskip : growStep st.table (growPrefix st n) n = growPrefix st n := by
          unfold growStep
          rw [if_pos (show ((st.table.getD n emptyEntry).vptr == 0) = true from
            beq_iff_eq.mpr hev)]
        rw [hskip]
        have hocc2 : occupied (st.table.take n) ≤ occupied (st.table.take (n + 1)) := by
          rw [occupied_take_succ st.table n (by omega)]
          omega
        refine ⟨ihpools, ihnfill, ihcount, ihdim, ihlen, by omega, ihent, ihfind, ?_, ?_⟩
        · intro jn hjn hv
          obtain ⟨jo, hjo, hje⟩ := ihsrc jn hjn hv
          exact ⟨jo, by omega, hje⟩
        · intro jo hjo hov
          rcases Nat.lt_or_ge jo n with hlt | hge
          · exact ihtgt jo hlt hov
          · have : jo = n := by omega
            subst this
            exact absurd hev hov
      · -- the old slot n is occupied: re-slot it
        obtain ⟨b, hgst, hhash⟩ := hentries n hnlt hev
        have hgacc : getSV (growPrefix st n).pools (entryAt st n).vptr = some (svOf b) := by
          rw [ihpools]
          exact hgst
        have hdim2 : (growPrefix st n).tabledim = 2 ^ (k + 1) := by
          rw [ihdim, hdim, pow_succ]
          ring
        have hlen2 : (growPrefix st n).table.length = (growPrefix st n).tabledim := by
          rw [ihlen, ihdim]
        -- an empty slot exists in the accumulator
        have hexists : ∃ i < (growPrefix st n).tabledim,
            (entryAt (growPrefix st n) i).vptr = 0 := by
          have hword : occupied (growPrefix st n).table < (growPrefix st n).table.length := by
            have h1 := occupied_take_le st.table n
            rw [ihlen]
            have hd : 0 < st.tabledim := by rw [hdim]; exact Nat.pos_pow_of_pos _ (by omega)
            omega
          obtain ⟨i, hi, hie⟩ := exists_empty_slot _ hword
          exact ⟨i, by rw [← hlen2]; exact hi, hie⟩
        obtain ⟨inew, hfAcc⟩ :=
          findSlot_isSome_of_empty (growPrefix st n) (entryAt st n).hash b (k + 1)
            hdim2 hexists
        obtain ⟨t2, ht2, hpt2, hcond2, hpref2⟩ :=
          findSlot_some_spec (growPrefix st n) (entryAt st n).hash b (k + 1) hdim2
            inew hfAcc
        have hinew_dim : inew < (growPrefix st n).tabledim := by
          rw [← hpt2]
          apply probeIdx_lt
          rw [hdim2]
          exact Nat.pos_pow_of_pos _ (by omega)
        -- the found slot must be empty: a match would be a duplicate of an
        -- already-copied old entry, contradicting findability in st
        have hempty2 : (entryAt (growPrefix st n) inew).vptr = 0 := by
          by_contra hocc
          have hent_inew := ihent inew (by rw [← ihdim]; exact hinew_dim) hocc
          obtain ⟨b2, hg2, hh2⟩ := hent_inew
          have hg2acc : getSV (growPrefix st n).pools
              (entryAt (growPrefix st n) inew).vptr = some (svOf b2) := by
            rw [ihpools]
            exact hg2
          have helim := slotCondE_true_elim (growPrefix st n).pools (entryAt st n).hash b
            (entryAt (growPrefix st n) inew) b2 hocc hg2acc hcond2
          obtain ⟨jo, hjo, hjeq⟩ := ihsrc inew (by rw [← ihdim]; exact hinew_dim) hocc
          have hjov : (entryAt st jo).vptr ≠ 0 := by rw [← hjeq]; exact hocc
          have hgjo : getSV st.pools (entryAt st jo).vptr = some (svOf b2) := by
            rw [← hjeq]
            exact hg2
          have hfound := hfindable jo (by omega) hjov b2 hgjo
          have hfound_n := hfindable n hnlt hev b hgst
          have hhash_eq : (entryAt st jo).hash = (entryAt st n).hash := by
            rw [← hjeq]
            exact helim.1
          rw [hhash_eq, helim.2] at hfound
          rw [hfound] at hfound_n
          have : jo = n := by
            have := Option.some.inj hfound_n
            omega
          omega
        -- perform the placement
        have hstep := growStep_occupied_eq st.table (growPrefix st n) n b inew hev
          hgacc hfAcc
        have hhe : entryAt st n = { hash := calcHash b, vptr := (entryAt st n).vptr } := by
          rw [← hhash]
        have hslot2 : findSlot (growPrefix st n) (calcHash b) b = some inew := by
          rw [← hhash]
          exact hfAcc
        have hent_acc : ∀ j < (growPrefix st n).tabledim,
            entryOK (growPrefix st n).pools (entryAt (growPrefix st n) j) := by
          intro j hj
          rw [ihpools]
          exact ihent j (by rw [← ihdim]; exact hj)
        obtain ⟨hplt, hpself, hpother, hpent, hpfind, hpfindable⟩ :=
          place_spec (growPrefix st n) (k + 1) hdim2 hlen2 hent_acc b
            (entryAt st n).vptr hev hgacc inew hslot2 hempty2
        set st2 := setEntry (growPrefix st n) inew
          { hash := calcHash b, vptr := (entryAt st n).vptr } with hst2
        have hstep2 : growStep st.table (growPrefix st n) n = st2 := by
          rw [hstep, hst2, ← hhe]
          rfl
        rw [hstep2]
        have hself_e : entryAt st2 inew = entryAt st n := by
          rw [hpself, ← hhe]
        have hv2 : (entryAt st n).vptr ≠ 0 := hev
        refine ⟨ihpools, ihnfill, ihcount, ?_, ?_, ?_, ?_, ?_, ?_, ?_⟩
        · rw [hst2, setEntry_tabledim, ihdim]
        · rw [hst2, setEntry_table_length, ihlen]
        · -- occupancy increases by exactly one, matching the new prefix
          have hset : occupied st2.table = occupied (growPrefix st n).table + 1 := by
            rw [hst2]
            show occupied ((growPrefix st n).table.set inew _) = _
            apply occupied_set
            · rw [hlen2]; exact hinew_dim
            · exact hempty2
            · simpa using hev
          rw [hset, occupied_take_succ st.table n (by omega)]
          have : ¬(st.table.getD n emptyEntry).vptr = 0 := hev
          rw [if_neg this]
          omega
        · intro j hj
          have := hpent j (by rw [ihdim]; exact hj)
          rw [← ihpools]
          exact this
        · exact hpfindable ihfind
        · intro jn hjn hvn
          by_cases hji : jn = inew
          · subst hji
            exact ⟨n, by omega, hself_e⟩
          · rw [hpother jn hji] at hvn ⊢
            obtain ⟨jo, hjo, hje⟩ := ihsrc jn hjn hvn
            exact ⟨jo, by omega, hje⟩
        · intro jo hjo hov
          rcases Nat.lt_or_ge jo n with hlt | hge
          · obtain ⟨jn, hjn, hje⟩ := ihtgt jo hlt hov
            have hne : jn ≠ inew := by
              intro hcontra
              rw [hcontra] at hje
              rw [hje] at hempty2
              exact hov hempty2
            rw [← hpother jn hne] at hje
            exact ⟨jn, hjn, hje⟩
          · have : jo = n := by omega
            subst this
            refine ⟨inew, ?_, hself_e⟩
            rw [← ihdim]
            exact hinew_dim

end StringTableC

namespace StringTableC

/-! ## State-extension transports and the summary of grow -/

theorem findSlot_state_ext (st st2 : StringTable) (hash : Nat) (s : List Nat)
    (hdimq : st2.tabledim = st.tabledim) (htbl : st2.table = st.table)
    (hlen : st.table.length = st.tabledim)
    (hentries : ∀ i < st.tabledim, entryOK st.pools (entryAt st i))
    (hpres : ∀ v sv, getSV st.pools v = some sv → getSV st2.pools v = some sv) :
    findSlot st2 hash s = findSlot st hash s := by
  apply findSlot_congr _ _ _ _ hdimq
  intro i
  unfold slotCond
  have he : entryAt st2 i = entryAt st i := by unfold entryAt; rw [htbl]
  rw [he]
  by_cases hi : i < st.tabledim
  · exact slotCondE_pools_congr st.pools st2.pools hash s _ (hentries i hi) hpres
  · have hdef : entryAt st i = emptyEntry := by
      unfold entryAt
      exact List.getD_eq_default _ _ (by omega)
    rw [hdef]
    simp [slotCondE, emptyEntry]

theorem Findable_state_ext (st st2 : StringTable)
    (hdimq : st2.tabledim = st.tabledim) (htbl : st2.table = st.table)
    (hlen : st.table.length = st.tabledim)
    (hentries : ∀ i < st.tabledim, entryOK st.pools (entryAt st i))
    (hpres : ∀ v sv, getSV st.pools v = some sv → getSV st2.pools v = some sv)
    (hfindable : Findable st) : Findable st2 := by
  intro i hi hiv b2 hb2
  have he : entryAt st2 i = entryAt st i := by unfold entryAt; rw [htbl]
  rw [he] at hiv hb2 ⊢
  have hi2 : i < st.tabledim := by rw [hdimq] at hi; exact hi
  obtain ⟨b0, hg0, hh0⟩ := hentries i hi2 hiv
  have hg0b : getSV st2.pools (entryAt st i).vptr = some (svOf b0) := hpres _ _ hg0
  have hb20 : b2 = b0 := by
    rw [hb2] at hg0b
    exact svOf_inj (Option.some.inj hg0b)
  subst hb20
  rw [findSlot_state_ext st st2 _ _ hdimq htbl hlen hentries hpres]
  exact hfindable i hi2 hiv b2 hg0

theorem poolsDisc_of_eq (st st2 : StringTable)
    (hp : st2.pools = st.pools) (hn : st2.nfill = st.nfill)
    (hd : poolsDisc st) : poolsDisc st2 := by
  unfold poolsDisc
  rw [hp, hn]
  exact hd

/-- The behaviour of `grow` on a well-formed table: the entry array doubles
and is re-slotted; pools, fill cursor and count are untouched; occupancy
does not increase; all entries stay well formed and findable; and the new
array's occupied entries are exactly copies of the old array's. -/
theorem grow_spec (st : StringTable) (k : Nat)
    (hdim : st.tabledim = 2 ^ k) (hlen : st.table.length = st.tabledim)
    (hentries : ∀ j < st.tabledim, entryOK st.pools (entryAt st j))
    (hfindable : Findable st) :
    (grow st).pools = st.pools ∧ (grow st).nfill = st.nfill ∧
    (grow st).count = st.count ∧ (grow st).tabledim = 2 * st.tabledim ∧
    (grow st).table.length = 2 * st.tabledim ∧
    occupied (grow st).table ≤ occupied st.table ∧
    (∀ j < 2 * st.tabledim, entryOK st.pools (entryAt (grow st) j)) ∧
    Findable (grow st) ∧
    (∀ jn, jn < 2 * st.tabledim → (entryAt (grow st) jn).vptr ≠ 0 →
        ∃ jo, jo < st.tabledim ∧ entryAt (grow st) jn = entryAt st jo) ∧
    (∀ jo, jo < st.tabledim → (entryAt st jo).vptr ≠ 0 →
        ∃ jn, jn < 2 * st.tabledim ∧ entryAt (grow st) jn = entryAt st jo) := by
  obtain ⟨h1, h2, h3, h4, h5, h6, h7, h8, h9, h10⟩ :=
    growPrefix_spec st k hdim hlen hentries hfindable st.tabledim le_rfl
  have htake : st.table.take st.tabledim = st.table := by
    rw [← hlen]
    exact List.take_length st.table
  rw [grow_eq_growPrefix]
  refine ⟨h1, h2, h3, h4, h5, ?_, h7, h8, ?_, ?_⟩
  · rw [htake] at h6
    exact h6
  · intro jn hjn hv
    obtain ⟨jo, hjo, hje⟩ := h9 jn hjn hv
    exact ⟨jo, hjo, hje⟩
  · intro jo hjo hv
    obtain ⟨jn, hjn, hje⟩ := h10 jo hjo hv
    exact ⟨jn, hjn, hje⟩

end StringTableC

namespace StringTableC

theorem allocNPools_le (st : StringTable) (s : List Nat) :
    allocNPools st s ≤ st.pools.length + 1 := by
  unfold allocNPools
  split <;> omega

/-- Full specification of the store step shared by `insert` and `update`:
allocating the record for `s` and writing `{hash, handle}` into the empty
slot `i` found by the probe yields a table in which `s` is stored at `i`,
readable through the returned handle, with every invariant maintained. -/
theorem finishAdd_spec (st : StringTable) (s : List Nat) (i : Nat) (k : Nat)
    (hdim : st.tabledim = 2 ^ k)
    (hlen : st.table.length = st.tabledim)
    (hentries : ∀ j < st.tabledim, entryOK st.pools (entryAt st j))
    (hfindable : Findable st)
    (hdisc : poolsDisc st)
    (hb : st.pools.length + 1 < 2 ^ 20)
    (hslot : findSlot st (calcHash s) s = some i)
    (hempty : (entryAt st i).vptr = 0) :
    (finishAdd st (calcHash s) s i).1 = some ((allocValue st s).1, svOf s) ∧
    (finishAdd st (calcHash s) s i).2.tabledim = st.tabledim ∧
    (finishAdd st (calcHash s) s i).2.count = st.count ∧
    (finishAdd st (calcHash s) s i).2.table.length = st.table.length ∧
    (finishAdd st (calcHash s) s i).2.pools.length ≤ st.pools.length + 1 ∧
    (allocValue st s).1 ≠ 0 ∧
    getSV (finishAdd st (calcHash s) s i).2.pools (allocValue st s).1 = some (svOf s) ∧
    i < st.tabledim ∧
    entryAt (finishAdd st (calcHash s) s i).2 i =
      { hash := calcHash s, vptr := (allocValue st s).1 } ∧
    findSlot (finishAdd st (calcHash s) s i).2 (calcHash s) s = some i ∧
    (∀ j < st.tabledim, entryOK (finishAdd st (calcHash s) s i).2.pools
      (entryAt (finishAdd st (calcHash s) s i).2 j)) ∧
    Findable (finishAdd st (calcHash s) s i).2 ∧
    poolsDisc (finishAdd st (calcHash s) s i).2 ∧
    occupied (finishAdd st (calcHash s) s i).2.table = occupied st.table + 1 := by
  have hpres : ∀ v2 sv, getSV st.pools v2 = some sv →
      getSV (allocValue st s).2.pools v2 = some sv :=
    fun v2 sv h => getSV_allocValue_pres st s hdisc v2 sv h
  have hnew : getSV (allocValue st s).2.pools (allocValue st s).1 = some (svOf s) :=
    getSV_allocValue_new st s hb
  have hvne : (allocValue st s).1 ≠ 0 := allocValue_fst_ne_zero st s hb
  have htblA : (allocValue st s).2.table = st.table := allocValue_table st s
  have hdimA0 : (allocValue st s).2.tabledim = st.tabledim := allocValue_tabledim st s
  have hentxA : ∀ j, entryAt (allocValue st s).2 j = entryAt st j := by
    intro j
    unfold entryAt
    rw [htblA]
  have hdimA : (allocValue st s).2.tabledim = 2 ^ k := by rw [hdimA0, hdim]
  have hlenA : (allocValue st s).2.table.length = (allocValue st s).2.tabledim := by
    rw [htblA, hdimA0, hlen]
  have hentA : ∀ j < (allocValue st s).2.tabledim,
      entryOK (allocValue st s).2.pools (entryAt (allocValue st s).2 j) := by
    intro j hj
    rw [hentxA j]
    intro hv
    obtain ⟨b, hg, hh⟩ := hentries j (by rw [← hdimA0]; exact hj) hv
    exact ⟨b, hpres _ _ hg, hh⟩
  have hfindA : findSlot (allocValue st s).2 (calcHash s) s = some i := by
    rw [findSlot_state_ext st (allocValue st s).2 (calcHash s) s hdimA0 htblA
      hlen hentries hpres]
    exact hslot
  have hemptyA : (entryAt (allocValue st s).2 i).vptr = 0 := by
    rw [hentxA i]
    exact hempty
  have hfindableA : Findable (allocValue st s).2 :=
    Findable_state_ext st (allocValue st s).2 hdimA0 htblA hlen hentries hpres hfindable
  obtain ⟨hplt, hpself, hpother, hpent, hpfind, hpfindable⟩ :=
    place_spec (allocValue st s).2 k hdimA hlenA hentA s (allocValue st s).1
      hvne hnew i hfindA hemptyA
  have hplt2 : i < st.tabledim := by rw [← hdimA0]; exact hplt
  have hfe : (finishAdd st (calcHash s) s i).2 =
      setEntry (allocValue st s).2 i
        { hash := calcHash s, vptr := (allocValue st s).1 } := rfl
  refine ⟨?_, ?_, ?_, ?_, ?_, hvne, ?_, hplt2, ?_, ?_, ?_, ?_, ?_, ?_⟩
  · show deref (setEntry (allocValue st s).2 i
        { hash := calcHash s, vptr := (allocValue st s).1 }).pools (allocValue st s).1 =
      some ((allocValue st s).1, svOf s)
    unfold deref
    rw [setEntry_pools, hnew]
    rfl
  · rw [hfe, setEntry_tabledim, hdimA0]
  · rw [hfe]
    have h1 : (setEntry (allocValue st s).2 i
        { hash := calcHash s, vptr := (allocValue st s).1 }).count =
        (allocValue st s).2.count := rfl
    rw [h1, allocValue_count]
  · rw [hfe, setEntry_table_length, htblA]
  · rw [hfe, setEntry_pools, allocValue_pools_length]
    exact allocNPools_le st s
  · rw [hfe, setEntry_pools]
    exact hnew
  · rw [hfe]
    exact hpself
  · rw [hfe]
    exact hpfind
  · intro j hj
    rw [hfe, setEntry_pools]
    exact hpent j (by rw [hdimA0]; exact hj)
  · rw [hfe]
    exact hpfindable hfindableA
  · rw [hfe]
    exact poolsDisc_of_eq (allocValue st s).2 _ rfl rfl (poolsDisc_allocValue st s hdisc)
  · rw [hfe]
    show occupied ((allocValue st s).2.table.set i _) = occupied st.table + 1
    rw [htblA]
    apply occupied_set
    · omega
    · rw [show st.table.getD i emptyEntry = entryAt st i from rfl]
      exact hempty
    · simpa using hvne

end StringTableC

namespace StringTableC

/-- The full specification of the shared empty-slot branch of `insert` and
`update`: the record for `s` is created and stored, the count increments,
at most one pool is added, the capacity either stays or doubles, and the
representation invariant holds again afterwards. -/
theorem insertAbsent_spec (st : StringTable) (s : List Nat) (i0 : Nat)
    (hInv : Inv st) (hb : st.pools.length + 1 < 2 ^ 20)
    (hslot : findSlot st (calcHash s) s = some i0)
    (hempty : (entryAt st i0).vptr = 0) :
    ∃ v i1,
      (insertAbsent st (calcHash s) s i0).1 = some (v, svOf s) ∧
      Inv (insertAbsent st (calcHash s) s i0).2 ∧
      (insertAbsent st (calcHash s) s i0).2.count = st.count + 1 ∧
      (insertAbsent st (calcHash s) s i0).2.pools.length ≤ st.pools.length + 1 ∧
      v ≠ 0 ∧
      getSV (insertAbsent st (calcHash s) s i0).2.pools v = some (svOf s) ∧
      findSlot (insertAbsent st (calcHash s) s i0).2 (calcHash s) s = some i1 ∧
      entryAt (insertAbsent st (calcHash s) s i0).2 i1 =
        { hash := calcHash s, vptr := v } ∧
      ((insertAbsent st (calcHash s) s i0).2.tabledim = st.tabledim ∨
        (insertAbsent st (calcHash s) s i0).2.tabledim = 2 * st.tabledim) := by
  obtain ⟨k, hdim⟩ := hInv.dim_pow
  have hdimpos : 0 < st.tabledim := by rw [hdim]; exact Nat.pos_pow_of_pos _ (by omega)
  have hfind1 : ∀ h2 s2, findSlot { st with count := st.count + 1 } h2 s2 =
      findSlot st h2 s2 := by
    intro h2 s2
    exact findSlot_congr st _ h2 s2 rfl (fun i => rfl)
  have hfindable1 : Findable { st with count := st.count + 1 } := by
    intro i hi hiv b hb2
    rw [hfind1]
    exact hInv.findable i hi hiv b hb2
  by_cases hgc : growCheck (st.count + 1) st.tabledim
  · -- growth is triggered
    have hrw : insertAbsent st (calcHash s) s i0 =
        match findSlot (grow { st with count := st.count + 1 }) (calcHash s) s with
        | none => (none, grow { st with count := st.count + 1 })
        | some i => finishAdd (grow { st with count := st.count + 1 }) (calcHash s) s i := by
      unfold insertAbsent
      rw [if_pos hgc]
    obtain ⟨g1, g2, g3, g4, g5, g6, g7, g8, g9, g10⟩ :=
      grow_spec { st with count := st.count + 1 } k hdim hInv.tbl_len hInv.entries
        hfindable1
    have hdimg : (grow { st with count := st.count + 1 }).tabledim = 2 ^ (k + 1) := by
      rw [g4]
      show 2 * st.tabledim = 2 ^ (k + 1)
      rw [hdim, pow_succ]
      ring
    have hleng : (grow { st with count := st.count + 1 }).table.length =
        (grow { st with count := st.count + 1 }).tabledim := by
      rw [g5, g4]
    have hcountlt : st.count < st.tabledim := by
      have := hInv.load
      omega
    have hexg : ∃ i2 < (grow { st with count := st.count + 1 }).tabledim,
        (entryAt (grow { st with count := st.count + 1 }) i2).vptr = 0 := by
      have hword : occupied (grow { st with count := st.count + 1 }).table <
          (grow { st with count := st.count + 1 }).table.length := by
        have h6b : occupied (grow { st with count := st.count + 1 }).table ≤
            occupied st.table := g6
        have hoc := hInv.occ
        rw [g5]
        show _ < 2 * st.tabledim
        omega
      obtain ⟨i2, hi2, hi2e⟩ := exists_empty_slot _ hword
      refine ⟨i2, ?_, hi2e⟩
      rw [← hleng]
      exact hi2
    obtain ⟨ig, hfg⟩ := findSlot_isSome_of_empty (grow { st with count := st.count + 1 })
      (calcHash s) s (k + 1) hdimg hexg
    have hemptyg : (entryAt (grow { st with count := st.count + 1 }) ig).vptr = 0 := by
      by_contra hocc
      obtain ⟨tg, htg, hptg, hcondg, hprefg⟩ :=
        findSlot_some_spec (grow { st with count := st.count + 1 }) (calcHash s) s
          (k + 1) hdimg ig hfg
      have higd : ig < (grow { st with count := st.count + 1 }).tabledim := by
        rw [← hptg]
        apply probeIdx_lt
        rw [hdimg]
        exact Nat.pos_pow_of_pos _ (by omega)
      obtain ⟨b2, hg2, hh2⟩ := g7 ig (by rw [← g4]; exact higd) hocc
      have hg2g : getSV (grow { st with count := st.count + 1 }).pools
          (entryAt (grow { st with count := st.count + 1 }) ig).vptr =
          some (svOf b2) := by
        rw [g1]
        exact hg2
      obtain ⟨hhasheq, hb2s⟩ := slotCondE_true_elim _ (calcHash s) s _ b2 hocc hg2g hcondg
      obtain ⟨jo, hjo, hje⟩ := g9 ig (by rw [← g4]; exact higd) hocc
      have hjov : (entryAt st jo).vptr ≠ 0 := by
        have : entryAt { st with count := st.count + 1 } jo = entryAt st jo := rfl
        rw [this] at hje
        rw [← hje]
        exact hocc
      have hgjo : getSV st.pools (entryAt st jo).vptr = some (svOf b2) := by
        have : entryAt { st with count := st.count + 1 } jo = entryAt st jo := rfl
        rw [this] at hje
        rw [← hje]
        exact hg2
      have hfound := hInv.findable jo hjo hjov b2 hgjo
      have hjo_hash : (entryAt st jo).hash = calcHash s := by
        have : entryAt { st with count := st.count + 1 } jo = entryAt st jo := rfl
        rw [this] at hje
        rw [← hje]
        exact hhasheq
      rw [hjo_hash, hb2s] at hfound
      rw [hslot] at hfound
      have hjoeq : jo = i0 := (Option.some.inj hfound).symm
      subst hjoeq
      have : entryAt { st with count := st.count + 1 } jo = entryAt st jo := rfl
      rw [this] at hje
      rw [← hje] at hempty
      exact hocc hempty
    have hentg : ∀ j < (grow { st with count := st.count + 1 }).tabledim,
        entryOK (grow { st with count := st.count + 1 }).pools
          (entryAt (grow { st with count := st.count + 1 }) j) := by
      intro j hj
      rw [g1]
      exact g7 j (by rw [← g4]; exact hj)
    have hdiscg : poolsDisc (grow { st with count := st.count + 1 }) :=
      poolsDisc_of_eq { st with count := st.count + 1 } _ g1 g2 hInv.disc
    have hbg : (grow { st with count := st.count + 1 }).pools.length + 1 < 2 ^ 20 := by
      rw [g1]
      exact hb
    obtain ⟨f1, f2, f3, f4, f5, f6, f7, f8, f9, f10, f11, f12, f13, f14⟩ :=
      finishAdd_spec (grow { st with count := st.count + 1 }) s ig (k + 1)
        hdimg hleng hentg g8 hdiscg hbg hfg hemptyg
    refine ⟨(allocValue (grow { st with count := st.count + 1 }) s).1, ig, ?_⟩
    rw [hrw, hfg]
    have hdim5 : (finishAdd (grow { st with count := st.count + 1 }) (calcHash s) s ig).2.tabledim =
        2 * st.tabledim := by
      rw [f2, g4]
    refine ⟨f1, ?_, ?_, ?_, f6, f7, f10, f9, Or.inr hdim5⟩
    · constructor
      · exact ⟨k + 1, by rw [f2, hdimg]⟩
      · rw [hdim5]
        have := hInv.dim_ge
        omega
      · rw [f4, g5, hdim5]
      · rw [f3, g3, hdim5]
        show 5 * (st.count + 1) ≤ 4 * (2 * st.tabledim)
        have := hInv.load
        have := hInv.dim_ge
        omega
      · rw [f14, f3, g3]
        show occupied (grow { st with count := st.count + 1 }).table + 1 ≤ st.count + 1
        have h6b : occupied (grow { st with count := st.count + 1 }).table ≤
            occupied st.table := g6
        have := hInv.occ
        omega
      · intro j hj
        exact f11 j (by rw [← f2]; exact hj)
      · exact f12
      · exact f13
    · rw [f3, g3]
    · calc (finishAdd (grow { st with count := st.count + 1 }) (calcHash s) s ig).2.pools.length
          ≤ (grow { st with count := st.count + 1 }).pools.length + 1 := f5
        _ = st.pools.length + 1 := by rw [g1]
  · -- no growth
    have hrw : insertAbsent st (calcHash s) s i0 =
        finishAdd { st with count := st.count + 1 } (calcHash s) s i0 := by
      unfold insertAbsent
      rw [if_neg hgc]
    have hslot1 : findSlot { st with count := st.count + 1 } (calcHash s) s = some i0 := by
      rw [hfind1]
      exact hslot
    obtain ⟨f1, f2, f3, f4, f5, f6, f7, f8, f9, f10, f11, f12, f13, f14⟩ :=
      finishAdd_spec { st with count := st.count + 1 } s i0 k hdim hInv.tbl_len
        hInv.entries hfindable1 hInv.disc hb hslot1 hempty
    refine ⟨(allocValue { st with count := st.count + 1 } s).1, i0, ?_⟩
    rw [hrw]
    have hdim5 : (finishAdd { st with count := st.count + 1 } (calcHash s) s i0).2.tabledim =
        st.tabledim := f2
    have hload5 : 5 * (st.count + 1) ≤ 4 * st.tabledim := by
      unfold growCheck at hgc
      simp only [decide_eq_true_eq] at hgc
      omega
    refine ⟨f1, ?_, ?_, f5, f6, f7, f10, f9, Or.inl hdim5⟩
    · constructor
      · exact ⟨k, by rw [hdim5, hdim]⟩
      · rw [hdim5]
        exact hInv.dim_ge
      · rw [f4, hdim5]
        exact hInv.tbl_len
      · rw [f3, hdim5]
        exact hload5
      · rw [f14, f3]
        show occupied st.table + 1 ≤ st.count + 1
        have := hInv.occ
        omega
      · intro j hj
        exact f11 j (by rw [← f2]; exact hj)
      · exact f12
      · exact f13
    · rw [f3]

end StringTableC

namespace StringTableC

/-! ## nextpow2 and the initial state -/

theorem nextpow2Go_pow (val fuel res : Nat) (h : ∃ j, res = 2 ^ j) :
    ∃ j, nextpow2Go val fuel res = 2 ^ j := by
  induction fuel generalizing res with
  | zero => exact h
  | succ fuel ih =>
      unfold nextpow2Go
      by_cases hlt : res < val
      · rw [if_pos hlt]
        obtain ⟨j, rfl⟩ := h
        apply ih
        exact ⟨j + 1, by rw [Nat.shiftLeft_eq, pow_succ]; ring⟩
      · rw [if_neg hlt]
        exact h

theorem nextpow2_pow (val : Nat) : ∃ j, nextpow2 val = 2 ^ j :=
  nextpow2Go_pow val val 1 ⟨0, rfl⟩

theorem nextpow2Go_ge (val : Nat) (fuel : Nat) : ∀ res, 1 ≤ res → val ≤ res + fuel →
    val ≤ nextpow2Go val fuel res := by
  induction fuel with
  | zero =>
      intro res hres h
      unfold nextpow2Go
      omega
  | succ fuel ih =>
      intro res hres h
      unfold nextpow2Go
      by_cases hlt : res < val
      · rw [if_pos hlt]
        have hs : res <<< 1 = 2 * res := by rw [Nat.shiftLeft_eq]; ring
        rw [hs]
        exact ih (2 * res) (by omega) (by omega)
      · rw [if_neg hlt]
        omega

theorem nextpow2_ge (val : Nat) : val ≤ nextpow2 val :=
  nextpow2Go_ge val val 1 (by omega) (by omega)

theorem nextpow2Go_minimal (val : Nat) (fuel : Nat) : ∀ res,
    nextpow2Go val fuel res = res ∨ nextpow2Go val fuel res < 2 * val := by
  induction fuel with
  | zero =>
      intro res
      left
      rfl
  | succ fuel ih =>
      intro res
      unfold nextpow2Go
      by_cases hlt : res < val
      · rw [if_pos hlt]
        rcases ih (res <<< 1) with h | h
        · right
          rw [h, Nat.shiftLeft_eq]
          omega
        · right
          exact h
      · rw [if_neg hlt]
        left
        rfl

theorem nextpow2_minimal (val : Nat) : nextpow2 val = 1 ∨ nextpow2 val < 2 * val :=
  nextpow2Go_minimal val val 1

theorem initSize_pow (size : Nat) : ∃ k, initSize size = 2 ^ k := by
  unfold initSize
  by_cases h : nextpow2 (5 * size / 4) < 32
  · rw [if_pos h]
    exact ⟨5, rfl⟩
  · rw [if_neg h]
    exact nextpow2_pow _

theorem initSize_ge_32 (size : Nat) : 32 ≤ initSize size := by
  unfold initSize
  by_cases h : nextpow2 (5 * size / 4) < 32
  · rw [if_pos h]
  · rw [if_neg h]
    omega

theorem initSize_ge_hint (size : Nat) : 5 * size / 4 ≤ initSize size := by
  unfold initSize
  have := nextpow2_ge (5 * size / 4)
  by_cases h : nextpow2 (5 * size / 4) < 32
  · rw [if_pos h]
    omega
  · rw [if_neg h]
    omega

theorem initSize_minimal (size : Nat) :
    initSize size = 32 ∨ initSize size < 2 * (5 * size / 4) := by
  unfold initSize
  by_cases h : nextpow2 (5 * size / 4) < 32
  · rw [if_pos h]
    left
    rfl
  · rw [if_neg h]
    rcases nextpow2_minimal (5 * size / 4) with h1 | h1
    · omega
    · right
      exact h1

/-- The freshly constructed table satisfies the representation invariant. -/
theorem Inv_init (size : Nat) : Inv (init size) := by
  have hent : ∀ j, entryAt (init size) j = emptyEntry := by
    intro j
    show (List.replicate (initSize size) emptyEntry).getD j emptyEntry = emptyEntry
    by_cases hj : j < initSize size
    · exact getD_replicate _ _ _ _ hj
    · exact List.getD_eq_default _ _ (by simp only [List.length_replicate]; omega)
  constructor
  · exact initSize_pow size
  · exact initSize_ge_32 size
  · show (List.replicate (initSize size) emptyEntry).length = initSize size
    simp
  · show 5 * 0 ≤ 4 * initSize size
    omega
  · show occupied (List.replicate (initSize size) emptyEntry) ≤ 0
    rw [occupied_replicate_empty]
  · intro i _ hv
    rw [hent i] at hv
    exact absurd rfl hv
  · intro i _ hv
    rw [hent i] at hv
    exact absurd rfl hv
  · intro r hr
    simp [init, emptyPool] at hr

/-! ## Branch analysis of lookup, insert and update -/

theorem Inv_findSlot_some (st : StringTable) (hInv : Inv st) (hash : Nat) (s : List Nat) :
    ∃ i, findSlot st hash s = some i := by
  obtain ⟨k, hdim⟩ := hInv.dim_pow
  apply findSlot_isSome_of_empty st hash s k hdim
  have hword : occupied st.table < st.table.length := by
    have h1 := hInv.occ
    have h2 := hInv.load
    have h3 := hInv.dim_ge
    rw [hInv.tbl_len]
    omega
  obtain ⟨i, hi, he⟩ := exists_empty_slot _ hword
  refine ⟨i, ?_, he⟩
  rw [← hInv.tbl_len]
  exact hi

theorem lookup_eq (st : StringTable) (s : List Nat) (i0 : Nat)
    (hslot : findSlot st (calcHash s) s = some i0) :
    lookup st s = (deref st.pools (entryAt st i0).vptr, st) := by
  unfold lookup
  show (match findSlot st (calcHash s) s with
      | none => ((none : Option (Nat × StringValue)), st)
      | some i1 => (deref st.pools (entryAt st i1).vptr, st)) = _
  rw [hslot]

theorem insert_present (st : StringTable) (s : List Nat) (i0 : Nat)
    (hslot : findSlot st (calcHash s) s = some i0)
    (hocc : (entryAt st i0).vptr ≠ 0) :
    insert st s = (none, st) := by
  unfold insert
  show (match findSlot st (calcHash s) s with
      | none => ((none : Option (Nat × StringValue)), st)
      | some i1 => if ((entryAt st i1).vptr != 0) = true then (none, st)
          else insertAbsent st (calcHash s) s i1) = (none, st)
  rw [hslot]
  show (if ((entryAt st i0).vptr != 0) = true then ((none : Option (Nat × StringValue)), st)
      else insertAbsent st (calcHash s) s i0) = (none, st)
  rw [if_pos (by simpa using hocc)]

theorem insert_absent_eq (st : StringTable) (s : List Nat) (i0 : Nat)
    (hslot : findSlot st (calcHash s) s = some i0)
    (hempty : (entryAt st i0).vptr = 0) :
    insert st s = insertAbsent st (calcHash s) s i0 := by
  unfold insert
  show (match findSlot st (calcHash s) s with
      | none => ((none : Option (Nat × StringValue)), st)
      | some i1 => if ((entryAt st i1).vptr != 0) = true then (none, st)
          else insertAbsent st (calcHash s) s i1) = _
  rw [hslot]
  show (if ((entryAt st i0).vptr != 0) = true then ((none : Option (Nat × StringValue)), st)
      else insertAbsent st (calcHash s) s i0) = _
  rw [if_neg (by simp [hempty])]

theorem update_present (st : StringTable) (s : List Nat) (i0 : Nat)
    (hslot : findSlot st (calcHash s) s = some i0)
    (hocc : (entryAt st i0).vptr ≠ 0) :
    update st s = (deref st.pools (entryAt st i0).vptr, st) := by
  unfold update
  show (match findSlot st (calcHash s) s with
      | none => ((none : Option (Nat × StringValue)), st)
      | some i1 => if ((entryAt st i1).vptr != 0) = true
          then (deref st.pools (entryAt st i1).vptr, st)
          else insertAbsent st (calcHash s) s i1) = _
  rw [hslot]
  show (if ((entryAt st i0).vptr != 0) = true then (deref st.pools (entryAt st i0).vptr, st)
      else insertAbsent st (calcHash s) s i0) = _
  rw [if_pos (by simpa using hocc)]

theorem update_absent_eq (st : StringTable) (s : List Nat) (i0 : Nat)
    (hslot : findSlot st (calcHash s) s = some i0)
    (hempty : (entryAt st i0).vptr = 0) :
    update st s = insertAbsent st (calcHash s) s i0 := by
  unfold update
  show (match findSlot st (calcHash s) s with
      | none => ((none : Option (Nat × StringValue)), st)
      | some i1 => if ((entryAt st i1).vptr != 0) = true
          then (deref st.pools (entryAt st i1).vptr, st)
          else insertAbsent st (calcHash s) s i1) = _
  rw [hslot]
  show (if ((entryAt st i0).vptr != 0) = true then (deref st.pools (entryAt st i0).vptr, st)
      else insertAbsent st (calcHash s) s i0) = _
  rw [if_neg (by simp [hempty])]

/-- `insert` maintains the representation invariant. -/
theorem Inv_insert (st : StringTable) (s : List Nat) (hInv : Inv st)
    (hb : st.pools.length + 1 < 2 ^ 20) : Inv (insert st s).2 := by
  obtain ⟨i0, hslot⟩ := Inv_findSlot_some st hInv (calcHash s) s
  by_cases hocc : (entryAt st i0).vptr = 0
  · rw [insert_absent_eq st s i0 hslot hocc]
    obtain ⟨v, i1, hres, hinv5, _⟩ := insertAbsent_spec st s i0 hInv hb hslot hocc
    exact hinv5
  · rw [insert_present st s i0 hslot hocc]
    exact hInv

/-- `update` maintains the representation invariant. -/
theorem Inv_update (st : StringTable) (s : List Nat) (hInv : Inv st)
    (hb : st.pools.length + 1 < 2 ^ 20) : Inv (update st s).2 := by
  obtain ⟨i0, hslot⟩ := Inv_findSlot_some st hInv (calcHash s) s
  by_cases hocc : (entryAt st i0).vptr = 0
  · rw [update_absent_eq st s i0 hslot hocc]
    obtain ⟨v, i1, hres, hinv5, _⟩ := insertAbsent_spec st s i0 hInv hb hslot hocc
    exact hinv5
  · rw [update_present st s i0 hslot hocc]
    exact hInv

end StringTableC

namespace StringTableC

/-! ## The MurmurHash2 algorithm as the spec states it

The following definitions are a second, independently structured
transcription of section 4.1 of the spec ("seed `h = length`; process the
input in 4-byte blocks; ... fold the 0-3 remaining tail bytes; ...
finalize"), used to check that `calcHash` computes exactly that
algorithm: the input is split into its list of 4-byte little-endian block
values plus a tail, the blocks are folded over the mixing step, the tail
is folded in, and the finalizer is applied. -/

/-- One block mixing step of the spec:
`k *= m; k ^= k >> 24; k *= m; h *= m; h ^= k` in `uint32` arithmetic. -/
def specMix (h k : Nat) : Nat :=
  let k1 := k * murmurM % U32
  let k2 := (k1 ^^^ (k1 >>> 24)) % U32
  let k3 := k2 * murmurM % U32
  ((h * murmurM % U32) ^^^ k3) % U32

/-- Split a byte string into its 4-byte little-endian block values and the
remaining 0-3 tail bytes. -/
def specBlocks : List Nat → List Nat × List Nat
  | b0 :: b1 :: b2 :: b3 :: rest =>
      ((b3 <<< 24 ||| b2 <<< 16 ||| b1 <<< 8 ||| b0) % U32 :: (specBlocks rest).1,
        (specBlocks rest).2)
  | rest => ([], rest)

/-- Fold the 0-3 tail bytes into `h` by progressive byte-shifted XORs
followed by one `h *= m` (nothing is folded when the tail is empty). -/
def specTail (h : Nat) : List Nat → Nat
  | [] => h
  | [t0] => ((h ^^^ t0) % U32) * murmurM % U32
  | [t0, t1] => (((h ^^^ (t1 <<< 8)) % U32 ^^^ t0) % U32) * murmurM % U32
  | [t0, t1, t2] =>
      ((((h ^^^ (t2 <<< 16)) % U32 ^^^ (t1 <<< 8)) % U32 ^^^ t0) % U32) * murmurM % U32
  | _ => h

/-- The finalizer `h ^= h >> 13; h *= m; h ^= h >> 15` in `uint32`
arithmetic. -/
def specFinal (h : Nat) : Nat :=
  let h1 := (h ^^^ (h >>> 13)) % U32
  let h2 := h1 * murmurM % U32
  (h2 ^^^ (h2 >>> 15)) % U32

/-- Modelled from the spec (section 4.1): the complete hash, with seed
`h = length` (as a `uint32`). -/
def murmur2spec (s : List Nat) : Nat :=
  specFinal (specTail ((specBlocks s).1.foldl specMix (s.length % U32)) (specBlocks s).2)

theorem U32_pos : 0 < U32 := by
  unfold U32
  exact Nat.pos_pow_of_pos _ (by omega)

theorem xor_shiftRight_lt (a n : Nat) (ha : a < U32) : a ^^^ (a >>> n) < U32 := by
  have ha2 : a < 2 ^ 32 := ha
  have h1 : a >>> n ≤ a := by
    rw [Nat.shiftRight_eq_div_pow]
    exact Nat.div_le_self _ _
  show a ^^^ (a >>> n) < 2 ^ 32
  exact Nat.xor_lt_two_pow ha2 (by omega)

theorem murmurFinal_eq_specFinal (h : Nat) (hh : h < U32) :
    murmurFinal h = specFinal h := by
  unfold murmurFinal specFinal
  have h1 : h ^^^ h >>> 13 < U32 := xor_shiftRight_lt h 13 hh
  rw [Nat.mod_eq_of_lt h1]
  show (h ^^^ h >>> 13) * murmurM % U32 ^^^ ((h ^^^ h >>> 13) * murmurM % U32) >>> 15 =
      ((h ^^^ h >>> 13) * murmurM % U32 ^^^
        ((h ^^^ h >>> 13) * murmurM % U32) >>> 15) % U32
  have h2 : (h ^^^ h >>> 13) * murmurM % U32 < U32 := Nat.mod_lt _ U32_pos
  have h3 := xor_shiftRight_lt ((h ^^^ h >>> 13) * murmurM % U32) 15 h2
  rw [Nat.mod_eq_of_lt h3]

theorem specMix_lt (h k : Nat) : specMix h k < U32 := Nat.mod_lt _ U32_pos

/-- The loop-and-switch body of `calcHash` computes exactly the
blocks/tail/finalize decomposition of the spec. -/
theorem calcHashAux_eq_spec : ∀ n (s : List Nat), s.length ≤ n → ∀ h, h < U32 →
    calcHashAux h s =
      specFinal (specTail ((specBlocks s).1.foldl specMix h) (specBlocks s).2) := by
  intro n
  induction n with
  | zero =>
      intro s hs h hh
      have hnil : s = [] := List.length_eq_zero.mp (by omega)
      subst hnil
      exact murmurFinal_eq_specFinal h hh
  | succ n ih =>
      intro s hs h hh
      match s with
      | [] => exact murmurFinal_eq_specFinal h hh
      | [a] =>
          exact murmurFinal_eq_specFinal (((h ^^^ a) % U32) * murmurM % U32)
            (Nat.mod_lt _ U32_pos)
      | [a, b] =>
          exact murmurFinal_eq_specFinal ((((h ^^^ (b <<< 8)) % U32 ^^^ a) % U32) *
            murmurM % U32) (Nat.mod_lt _ U32_pos)
      | [a, b, c] =>
          exact murmurFinal_eq_specFinal (((((h ^^^ (c <<< 16)) % U32 ^^^ (b <<< 8)) % U32
            ^^^ a) % U32) * murmurM % U32) (Nat.mod_lt _ U32_pos)
      | b0 :: b1 :: b2 :: b3 :: rest =>
          have hrw1 : (specBlocks (b0 :: b1 :: b2 :: b3 :: rest)).1 =
              ((b3 <<< 24 ||| b2 <<< 16 ||| b1 <<< 8 ||| b0) % U32) ::
                (specBlocks rest).1 := rfl
          have hrw2 : (specBlocks (b0 :: b1 :: b2 :: b3 :: rest)).2 =
              (specBlocks rest).2 := rfl
          rw [hrw1, hrw2, List.foldl_cons]
          show calcHashAux
              (specMix h ((b3 <<< 24 ||| b2 <<< 16 ||| b1 <<< 8 ||| b0) % U32)) rest = _
          apply ih rest
          · have : (b0 :: b1 :: b2 :: b3 :: rest).length = rest.length + 4 := by simp
            omega
          · exact specMix_lt _ _

/-! ## Decoding the handle returned by allocValue -/

theorem allocValue_shift (st : StringTable) (s : List Nat)
    (hb : st.pools.length + 1 < 2 ^ 20) :
    (allocValue st s).1 >>> POOL_BITS = allocNPools st s := by
  rw [allocValue_fst_eq_add st s hb]
  show _ >>> 12 = _
  rw [Nat.shiftRight_eq_div_pow, POOL_SIZE_eq, Nat.mul_comm, Nat.mul_add_div
    (Nat.pos_pow_of_pos 12 (by omega)),
    Nat.div_eq_of_lt (POOL_SIZE_eq ▸ allocOff_lt st s), Nat.add_zero]

theorem allocValue_mask (st : StringTable) (s : List Nat)
    (hb : st.pools.length + 1 < 2 ^ 20) :
    (allocValue st s).1 &&& (POOL_SIZE - 1) = allocOff st s := by
  rw [allocValue_fst_eq_add st s hb, POOL_SIZE_eq, Nat.and_pow_two_sub_one_eq_mod,
    Nat.mul_comm (allocNPools st s) (2 ^ 12), Nat.mul_add_mod,
    Nat.mod_eq_of_lt (POOL_SIZE_eq ▸ allocOff_lt st s)]

end StringTableC

namespace StringTableC

/-! ## The claims -/

theorem lookup_nofind (st : StringTable) (s : List Nat)
    (h : findSlot st (calcHash s) s = none) : lookup st s = (none, st) := by
  unfold lookup
  show (match findSlot st (calcHash s) s with
      | none => ((none : Option (Nat × StringValue)), st)
      | some i1 => (deref st.pools (entryAt st i1).vptr, st)) = _
  rw [h]

/-- C1: for every byte string `s`, after `insert(s)` succeeds (returns a
new record rather than the already-present indicator `NULL`), `lookup(s)`
returns that same record: its length equals the length of `s` and its
byte content is `s` with a trailing zero terminator appended.  The table
satisfies the representation invariant and its pool count is below the
handle-encoding capacity. -/
theorem C1_insert_lookup_roundtrip (st : StringTable) (s : List Nat)
    (v : Nat) (sv : StringValue)
    (hInv : Inv st) (hb : st.pools.length + 1 < 2 ^ 20)
    (hres : (insert st s).1 = some (v, sv)) :
    lookup (insert st s).2 s = (some (v, sv), (insert st s).2) ∧
    sv.length = s.length ∧ sv.lstring = s ++ [0] := by
  obtain ⟨i0, hslot⟩ := Inv_findSlot_some st hInv (calcHash s) s
  by_cases hocc : (entryAt st i0).vptr = 0
  · rw [insert_absent_eq st s i0 hslot hocc] at hres ⊢
    obtain ⟨v0, i1, h1, h2, h3, h4, h5, h6, h7, h8, h9⟩ :=
      insertAbsent_spec st s i0 hInv hb hslot hocc
    rw [h1] at hres
    have hpair : (v0, svOf s) = (v, sv) := Option.some.inj hres
    have hveq : v = v0 := (congrArg Prod.fst hpair).symm
    have hsveq : sv = svOf s := (congrArg Prod.snd hpair).symm
    refine ⟨?_, by rw [hsveq]; rfl, by rw [hsveq]; rfl⟩
    rw [hveq, hsveq]
    rw [lookup_eq _ _ i1 h7, h8]
    show (deref (insertAbsent st (calcHash s) s i0).2.pools v0,
        (insertAbsent st (calcHash s) s i0).2) =
      (some (v0, svOf s), (insertAbsent st (calcHash s) s i0).2)
    unfold deref
    rw [h6]
    rfl
  · rw [insert_present st s i0 hslot hocc] at hres
    simp at hres

/-- C1 witness: inserting `"foo"` into a fresh table and looking it up. -/
theorem C1_insert_lookup_roundtrip_witness :
    lookup (insert (init 0) [102, 111, 111]).2 [102, 111, 111] =
      (some (4096, svOf [102, 111, 111]), (insert (init 0) [102, 111, 111]).2) :=
  (C1_insert_lookup_roundtrip (init 0) [102, 111, 111] 4096 (svOf [102, 111, 111])
    (Inv_init 0) (by decide) (by decide)).1

/-- C2: for every byte string `s` already present in the table (i.e. a
`lookup(s)` returns a record), a second `insert(s)` returns the
"already present" indicator `NULL` — a normal return, not an error — and
leaves the entire table state unchanged: no record is allocated and
count, capacity, entries and pools are all unmodified (the returned state
is the input state itself). -/
theorem C2_duplicate_insert_rejected (st : StringTable) (s : List Nat)
    (r : Nat × StringValue) (hpresent : (lookup st s).1 = some r) :
    insert st s = (none, st) := by
  cases hslot : findSlot st (calcHash s) s with
  | none =>
      rw [lookup_nofind st s hslot] at hpresent
      simp at hpresent
  | some i0 =>
      rw [lookup_eq st s i0 hslot] at hpresent
      have hocc : (entryAt st i0).vptr ≠ 0 := by
        intro hzero
        rw [hzero] at hpresent
        simp [deref, getSV] at hpresent
      exact insert_present st s i0 hslot hocc

/-- C2 witness: re-inserting `"foo"` returns `NULL` and the same state. -/
theorem C2_duplicate_insert_rejected_witness :
    insert (insert (init 0) [102, 111, 111]).2 [102, 111, 111] =
      (none, (insert (init 0) [102, 111, 111]).2) :=
  C2_duplicate_insert_rejected (insert (init 0) [102, 111, 111]).2 [102, 111, 111]
    (4096, svOf [102, 111, 111]) (by decide)

/-- C3: `grow()` doubles the capacity, re-slots every occupied entry by
its stored hash and copies each `{hash, handle}` pair verbatim into the
new array; pools, the fill cursor and the count are not touched, and
every string stored before the growth remains retrievable by `lookup`
afterwards with the same handle and unchanged content. -/
theorem C3_grow_preserves_content (st : StringTable) (hInv : Inv st) :
    (grow st).tabledim = 2 * st.tabledim ∧
    (grow st).pools = st.pools ∧
    (grow st).nfill = st.nfill ∧
    (grow st).count = st.count ∧
    ∀ i, i < st.tabledim → (entryAt st i).vptr ≠ 0 →
      ∀ b : List Nat, getSV st.pools (entryAt st i).vptr = some (svOf b) →
        (∃ j, j < (grow st).tabledim ∧ entryAt (grow st) j = entryAt st i) ∧
        lookup (grow st) b = (some ((entryAt st i).vptr, svOf b), grow st) := by
  obtain ⟨k, hdim⟩ := hInv.dim_pow
  obtain ⟨g1, g2, g3, g4, g5, g6, g7, g8, g9, g10⟩ :=
    grow_spec st k hdim hInv.tbl_len hInv.entries hInv.findable
  refine ⟨g4, g1, g2, g3, ?_⟩
  intro i hi hv b hb
  obtain ⟨jn, hjn, hje⟩ := g10 i hi hv
  refine ⟨⟨jn, by rw [g4]; exact hjn, hje⟩, ?_⟩
  obtain ⟨b0, hg0, hh0⟩ := hInv.entries i hi hv
  have hbb0 : b = b0 := by
    rw [hb] at hg0
    exact svOf_inj (Option.some.inj hg0)
  have hvn : (entryAt (grow st) jn).vptr ≠ 0 := by
    rw [hje]
    exact hv
  have hgn : getSV (grow st).pools (entryAt (grow st) jn).vptr = some (svOf b) := by
    rw [hje, g1]
    exact hb
  have hfound := g8 jn (by rw [g4]; exact hjn) hvn b hgn
  have hhash : (entryAt (grow st) jn).hash = calcHash b := by
    rw [hje, hh0, hbb0]
  rw [hhash] at hfound
  rw [lookup_eq (grow st) b jn hfound, hje, g1]
  unfold deref
  rw [hb]
  rfl

/-- C3 witness: growing a table holding `"foo"`. -/
theorem C3_grow_preserves_content_witness :
    (grow (insert (init 0) [102, 111, 111]).2).tabledim =
      2 * (insert (init 0) [102, 111, 111]).2.tabledim :=
  (C3_grow_preserves_content (insert (init 0) [102, 111, 111]).2
    (Inv_insert (init 0) [102, 111, 111] (Inv_init 0) (by decide))).1

/-- C10: `lookup` is read-only: for every byte string `s` and every table
state, `lookup(s, length)` leaves the entire table state — count,
capacity, every entry, the pool list, the bump cursor and all stored
record bytes — identical, whether or not the key is found. -/
theorem C10_lookup_pure (st : StringTable) (s : List Nat) :
    (lookup st s).2 = st := by
  unfold lookup
  show (match findSlot st (calcHash s) s with
      | none => ((none : Option (Nat × StringValue)), st)
      | some i1 => (deref st.pools (entryAt st i1).vptr, st)).2 = st
  cases hf : findSlot st (calcHash s) s with
  | none => rfl
  | some i => rfl

end StringTableC

namespace StringTableC

theorem grow_tabledim (st : StringTable) : (grow st).tabledim = 2 * st.tabledim := by
  show ((List.range st.tabledim).foldl (growStep st.table)
    { st with tabledim := 2 * st.tabledim,
              table := List.replicate (2 * st.tabledim) emptyEntry }).tabledim =
    2 * st.tabledim
  rw [(growFold_fields st.table (List.range st.tabledim) _).2.2.2.1]

/-- C4: the load-factor invariant `count ≤ capacity * 0.8` (equivalently
`5 * count ≤ 4 * capacity` — `4 * capacity / 5` is never an integer for a
power-of-two capacity, so the IEEE-double comparison agrees) holds after
every `insert` and `update`, and the capacity is always a power of two of
at least 32: construction rounds `⌊hint / loadFactor⌋ = 5 * hint / 4` up
to the next power of two with minimum 32, and each growth exactly doubles
the capacity. -/
theorem C4_load_factor_and_capacity :
    (∀ hint : Nat, (∃ k, (init hint).tabledim = 2 ^ k) ∧ 32 ≤ (init hint).tabledim ∧
      5 * hint / 4 ≤ (init hint).tabledim ∧
      ((init hint).tabledim = 32 ∨ (init hint).tabledim < 2 * (5 * hint / 4)) ∧
      (init hint).count = 0) ∧
    (∀ st : StringTable, ∀ s : List Nat, Inv st → st.pools.length + 1 < 2 ^ 20 →
      5 * (insert st s).2.count ≤ 4 * (insert st s).2.tabledim ∧
      (∃ k, (insert st s).2.tabledim = 2 ^ k) ∧ 32 ≤ (insert st s).2.tabledim) ∧
    (∀ st : StringTable, ∀ s : List Nat, Inv st → st.pools.length + 1 < 2 ^ 20 →
      5 * (update st s).2.count ≤ 4 * (update st s).2.tabledim ∧
      (∃ k, (update st s).2.tabledim = 2 ^ k) ∧ 32 ≤ (update st s).2.tabledim) ∧
    (∀ st : StringTable, (grow st).tabledim = 2 * st.tabledim) := by
  refine ⟨?_, ?_, ?_, grow_tabledim⟩
  · intro hint
    exact ⟨initSize_pow hint, initSize_ge_32 hint, initSize_ge_hint hint,
      initSize_minimal hint, rfl⟩
  · intro st s hInv hb
    have h := Inv_insert st s hInv hb
    exact ⟨h.load, h.dim_pow, h.dim_ge⟩
  · intro st s hInv hb
    have h := Inv_update st s hInv hb
    exact ⟨h.load, h.dim_pow, h.dim_ge⟩

/-- C4 witness: the invariant after inserting `"foo"` into a fresh table. -/
theorem C4_load_factor_and_capacity_witness :
    5 * (insert (init 0) [102, 111, 111]).2.count ≤
      4 * (insert (init 0) [102, 111, 111]).2.tabledim :=
  (C4_load_factor_and_capacity.2.1 (init 0) [102, 111, 111] (Inv_init 0) (by decide)).1

/-- C5: on a power-of-two capacity the triangular-number probe sequence of
`findSlot` (start `hash & (capacity - 1)`, step `index = (index + j) &
(capacity - 1)` with `j` incrementing, i.e. slot `probeIdx` at each step)
visits every slot exactly once in the first `capacity` steps — it is
injective and surjective there — hence `findSlot` (whose loop follows
exactly this sequence) terminates with a slot whenever at least one empty
slot exists. -/
theorem C5_probe_visits_all_slots :
    (∀ k hash a b : Nat, a < 2 ^ k → b < 2 ^ k →
      probeIdx (2 ^ k) hash a = probeIdx (2 ^ k) hash b → a = b) ∧
    (∀ k hash i : Nat, i < 2 ^ k → ∃ t, t < 2 ^ k ∧ probeIdx (2 ^ k) hash t = i) ∧
    (∀ st : StringTable, ∀ hash : Nat, ∀ s : List Nat, ∀ k : Nat,
      st.tabledim = 2 ^ k →
      findSlot st hash s =
        (firstHit (fun t => slotCond st hash s (probeIdx st.tabledim hash t))
          st.tabledim 0).map (probeIdx st.tabledim hash)) ∧
    (∀ st : StringTable, ∀ hash : Nat, ∀ s : List Nat, ∀ k : Nat,
      st.tabledim = 2 ^ k →
      (∃ i, i < st.tabledim ∧ (entryAt st i).vptr = 0) →
      ∃ j, findSlot st hash s = some j) := by
  refine ⟨?_, ?_, ?_, ?_⟩
  · intro k hash a b ha hb h
    exact probeIdx_injective k hash ha hb h
  · intro k hash i hi
    obtain ⟨t, ht, hpt⟩ := probeIdx_surjective k hash i hi
    exact ⟨t, ht, hpt⟩
  · intro st hash s k hdim
    exact findSlot_eq_firstHit st hash s k hdim
  · intro st hash s k hdim hemp
    obtain ⟨i, hi, he⟩ := hemp
    exact findSlot_isSome_of_empty st hash s k hdim ⟨i, hi, he⟩

/-- C5 witness: termination of `findSlot` on a fresh table. -/
theorem C5_probe_visits_all_slots_witness :
    ∃ j, findSlot (init 0) 0 [] = some j :=
  C5_probe_visits_all_slots.2.2.2 (init 0) 0 [] 5 (by decide)
    ⟨0, by decide, by decide⟩

/-- C6: for every byte string `s`, two consecutive `update(s)` calls
return references to the same record — same handle, same length, same
byte content — and the second call changes nothing: `update` has
idempotent get-or-create semantics, returning the existing record (not
the `NULL` indicator) when the slot is already occupied. -/
theorem C6_update_idempotent (st : StringTable) (s : List Nat)
    (hInv : Inv st) (hb : st.pools.length + 1 < 2 ^ 20) :
    ∃ v sv, (update st s).1 = some (v, sv) ∧
      update (update st s).2 s = (some (v, sv), (update st s).2) := by
  obtain ⟨k, hdim⟩ := hInv.dim_pow
  obtain ⟨i0, hslot⟩ := Inv_findSlot_some st hInv (calcHash s) s
  by_cases hocc : (entryAt st i0).vptr = 0
  · -- absent: the first update creates the record, the second finds it
    rw [update_absent_eq st s i0 hslot hocc]
    obtain ⟨v0, i1, h1, h2, h3, h4, h5, h6, h7, h8, h9⟩ :=
      insertAbsent_spec st s i0 hInv hb hslot hocc
    refine ⟨v0, svOf s, h1, ?_⟩
    have hocc1 : (entryAt (insertAbsent st (calcHash s) s i0).2 i1).vptr ≠ 0 := by
      rw [h8]
      exact h5
    rw [update_present (insertAbsent st (calcHash s) s i0).2 s i1 h7 hocc1, h8]
    show (deref (insertAbsent st (calcHash s) s i0).2.pools v0,
        (insertAbsent st (calcHash s) s i0).2) = _
    unfold deref
    rw [h6]
    rfl
  · -- present: both updates return the stored record and change nothing
    have hupd := update_present st s i0 hslot hocc
    obtain ⟨t0, ht0, hpt0, _, _⟩ := findSlot_some_spec st (calcHash s) s k hdim i0 hslot
    have hi0 : i0 < st.tabledim := by
      rw [← hpt0]
      apply probeIdx_lt
      rw [hdim]
      exact Nat.pos_pow_of_pos _ (by omega)
    obtain ⟨b, hg, hh⟩ := hInv.entries i0 hi0 hocc
    refine ⟨(entryAt st i0).vptr, svOf b, ?_, ?_⟩
    · rw [hupd]
      show deref st.pools (entryAt st i0).vptr = some ((entryAt st i0).vptr, svOf b)
      unfold deref
      rw [hg]
      rfl
    · have hsnd : (update st s).2 = st := by rw [hupd]
      rw [hsnd, hupd]
      show (deref st.pools (entryAt st i0).vptr, st) = _
      unfold deref
      rw [hg]
      rfl

/-- C6 witness: two consecutive updates of `"foo"` on a fresh table. -/
theorem C6_update_idempotent_witness :
    ∃ v sv, (update (init 0) [102, 111, 111]).1 = some (v, sv) ∧
      update (update (init 0) [102, 111, 111]).2 [102, 111, 111] =
        (some (v, sv), (update (init 0) [102, 111, 111]).2) :=
  C6_update_idempotent (init 0) [102, 111, 111] (Inv_init 0) (by decide)

end StringTableC

namespace StringTableC

/-- C7: `allocValue(bytes, length)` computes `required = header size +
length + 1`; when no pool exists or the current pool cannot hold the
record it starts a new pool of size `max(required, POOL_SIZE)` with the
bump cursor reset to 0; it places the record (bytes copied, terminator
appended, payload zeroed) at the cursor, advances the cursor by `required`
rounded up to the next multiple of 8, and returns the handle
`npools << POOL_BITS | offset-before-advance`; records already stored are
left unchanged. -/
theorem C7_allocValue_spec (st : StringTable) (s : List Nat)
    (hdisc : poolsDisc st) (hb : st.pools.length + 1 < 2 ^ 20) :
    (allocFresh st s = true ↔
      (st.pools.length = 0 ∨ POOL_SIZE < st.nfill + (SV_SIZE + s.length + 1))) ∧
    (allocFresh st s = true →
      (allocValue st s).2.pools.length = st.pools.length + 1 ∧
      ((allocValue st s).2.pools.getD ((allocValue st s).2.pools.length - 1)
          emptyPool).psize = max (SV_SIZE + s.length + 1) POOL_SIZE ∧
      allocOff st s = 0) ∧
    (allocFresh st s = false →
      (allocValue st s).2.pools.length = st.pools.length ∧
      allocOff st s = st.nfill) ∧
    (allocValue st s).2.nfill =
      allocOff st s + (SV_SIZE + s.length + 1) + negMod8 (SV_SIZE + s.length + 1) ∧
    ((SV_SIZE + s.length + 1) + negMod8 (SV_SIZE + s.length + 1)) % 8 = 0 ∧
    SV_SIZE + s.length + 1 ≤ (SV_SIZE + s.length + 1) + negMod8 (SV_SIZE + s.length + 1) ∧
    (SV_SIZE + s.length + 1) + negMod8 (SV_SIZE + s.length + 1) <
      (SV_SIZE + s.length + 1) + 8 ∧
    (allocValue st s).1 =
      ((allocValue st s).2.pools.length <<< POOL_BITS ||| allocOff st s) % U32 ∧
    getSV (allocValue st s).2.pools (allocValue st s).1 = some (svOf s) ∧
    (∀ v sv, getSV st.pools v = some sv → getSV (allocValue st s).2.pools v = some sv) := by
  refine ⟨?_, ?_, ?_, allocValue_nfill st s, ?_, ?_, ?_, ?_,
    getSV_allocValue_new st s hb, ?_⟩
  · unfold allocFresh
    simp
  · intro hf
    have hlenp : (allocValue st s).2.pools.length = st.pools.length + 1 := by
      rw [allocValue_pools_length]
      simp [allocNPools, hf]
    refine ⟨hlenp, ?_, by simp [allocOff, hf]⟩
    rw [allocValue_pools_fresh st s hf]
    have hsub : (st.pools ++
        [({ psize := if SV_SIZE + s.length + 1 > POOL_SIZE then SV_SIZE + s.length + 1
            else POOL_SIZE, recs := [(0, svOf s)] } : Pool)]).length - 1 =
        st.pools.length := by
      simp
    rw [hsub, getD_append_last]
    show (if SV_SIZE + s.length + 1 > POOL_SIZE then SV_SIZE + s.length + 1
        else POOL_SIZE) = max (SV_SIZE + s.length + 1) POOL_SIZE
    rw [Nat.max_def]
    by_cases h : SV_SIZE + s.length + 1 ≤ POOL_SIZE
    · rw [if_neg (by omega), if_pos h]
    · rw [if_pos (by omega), if_neg h]
  · intro hf
    constructor
    · rw [allocValue_pools_length]
      simp [allocNPools, hf]
    · simp [allocOff, hf]
  · unfold negMod8
    omega
  · unfold negMod8
    omega
  · unfold negMod8
    omega
  · rw [allocValue_pools_length]
    exact allocValue_fst st s
  · intro v sv h
    exact getSV_allocValue_pres st s hdisc v sv h

/-- C7 witness: allocating the record for `"foo"` in a fresh table. -/
theorem C7_allocValue_spec_witness :
    getSV (allocValue (init 0) [102, 111, 111]).2.pools
        (allocValue (init 0) [102, 111, 111]).1 = some (svOf [102, 111, 111]) :=
  (C7_allocValue_spec (init 0) [102, 111, 111]
    (by intro r hr; simp [init, emptyPool] at hr)
    (by decide)).2.2.2.2.2.2.2.2.1

/-- C8: `calcHash` is a pure function (hence deterministic within a run)
computing exactly the MurmurHash2 algorithm of the spec — seed
`h = length`; per 4-byte block `k`: `k *= m; k ^= k >> 24; k *= m;
h *= m; h ^= k` with `m = 0x5bd1e995`; tail bytes folded by byte-shifted
XORs followed by one `h *= m`; finalized by `h ^= h >> 13; h *= m;
h ^= h >> 15` — and its result is a 32-bit value. -/
theorem C8_calcHash_murmur2 :
    (∀ s : List Nat, calcHash s = murmur2spec s) ∧
    (∀ s : List Nat, calcHash s < 2 ^ 32) := by
  have hmain : ∀ s : List Nat, calcHash s = murmur2spec s := by
    intro s
    unfold calcHash murmur2spec
    exact calcHashAux_eq_spec s.length s le_rfl (s.length % U32) (Nat.mod_lt _ U32_pos)
  refine ⟨hmain, ?_⟩
  intro s
  rw [hmain s]
  unfold murmur2spec specFinal
  exact Nat.mod_lt _ U32_pos

/-- C9: decoding the reserved sentinel handle 0 yields "no record"
without touching any pool, and for every handle produced by `allocValue`
(with the pool count in encodable range), `poolIndex = (handle >>
POOL_BITS) - 1` and `offset = handle & (POOL_SIZE - 1)` recover exactly
the pool index and offset the allocator packed into it, and the stored
record is readable there. -/
theorem C9_handle_decode :
    (∀ ps : List Pool, getSV ps 0 = none) ∧
    (∀ st : StringTable, ∀ s : List Nat, st.pools.length + 1 < 2 ^ 20 →
      (allocValue st s).1 ≠ 0 ∧
      ((allocValue st s).1 >>> POOL_BITS) - 1 = (allocValue st s).2.pools.length - 1 ∧
      (allocValue st s).1 &&& (POOL_SIZE - 1) = allocOff st s ∧
      getSV (allocValue st s).2.pools (allocValue st s).1 = some (svOf s)) := by
  refine ⟨fun ps => rfl, ?_⟩
  intro st s hb
  refine ⟨allocValue_fst_ne_zero st s hb, ?_, allocValue_mask st s hb,
    getSV_allocValue_new st s hb⟩
  rw [allocValue_shift st s hb, allocValue_pools_length]

/-- C9 witness: the handle returned for `"foo"` in a fresh table. -/
theorem C9_handle_decode_witness :
    (allocValue (init 0) [102, 111, 111]).1 ≠ 0 :=
  (C9_handle_decode.2 (init 0) [102, 111, 111] (by decide)).1

end StringTableC
